import Mathlib

/-!
Verification of the fissile release/compilation pipeline.

Shallow embedding of the Go sources (package `model`, `compilator`,
`model/resolver`, `kube`):
Go strings are modelled as `String` (or `List Nat` of bytes where byte-level
behaviour matters), Go maps as association lists `List (String × α)` with
unique keys, Go channels/goroutine interleavings as explicit lists of observed
events, and YAML values as an inductive sum type.
-/

namespace Fissile

/-! ## Association list helpers (Go `map[string]T`) -/

/-- Lookup in an association list; Go `v, ok := m[k]`. -/
def alookup : List (String × α) → String → Option α
  | [], _ => none
  | e :: rest, k => if e.1 = k then some e.2 else alookup rest k

/-- Map update; Go `m[k] = v`: overwrites the (first) entry when the key is
present, appends otherwise.  With unique keys this is exactly Go map
assignment (iteration order of Go maps is not modelled; the embedding fixes
insertion order). -/
def aset : List (String × α) → String → α → List (String × α)
  | [], k, v => [(k, v)]
  | e :: rest, k, v => if e.1 = k then (k, v) :: rest else e :: aset rest k v

/-- Map deletion; Go `delete(m, k)`. -/
def aerase : List (String × α) → String → List (String × α)
  | [], _ => []
  | e :: rest, k => if e.1 = k then aerase rest k else e :: aerase rest k

theorem alookup_aset_self (m : List (String × α)) (k : String) (v : α) :
    alookup (aset m k v) k = some v := by
  induction m with
  | nil => simp [aset, alookup]
  | cons e rest ih =>
    by_cases he : e.1 = k
    · simp [aset, alookup, he]
    · simp [aset, alookup, he, ih]

theorem alookup_aset_ne (m : List (String × α)) (k k' : String) (v : α)
    (h : ¬ k = k') : alookup (aset m k v) k' = alookup m k' := by
  induction m with
  | nil => simp [aset, alookup, h]
  | cons e rest ih =>
    by_cases he : e.1 = k
    · simp [aset, alookup, he, h]
    · by_cases he' : e.1 = k'
      · have hkk : ¬ k' = k := fun hh => h hh.symm
        simp [aset, alookup, he, he', hkk]
      · simp [aset, alookup, he, he', ih]

theorem alookup_aerase_self (m : List (String × α)) (k : String) :
    alookup (aerase m k) k = none := by
  induction m with
  | nil => simp [aerase, alookup]
  | cons e rest ih =>
    by_cases he : e.1 = k
    · simp [aerase, he, ih]
    · simp [aerase, alookup, he, ih]

theorem alookup_aerase_ne (m : List (String × α)) (k k' : String)
    (h : ¬ k = k') : alookup (aerase m k) k' = alookup m k' := by
  induction m with
  | nil => simp [aerase]
  | cons e rest ih =>
    by_cases he : e.1 = k
    · have : ¬ e.1 = k' := by rw [he]; exact h
      simp [aerase, alookup, he, this, ih, h]
    · by_cases he' : e.1 = k'
      · have hkk : ¬ k' = k := fun hh => h hh.symm
        simp [aerase, alookup, he, he', hkk]
      · simp [aerase, alookup, he, he', ih]

/-! ## Compilation synchronizer (`compilator.go`, `Compile`)

The synchronizer drains the `doneCh` channel: `for result := range doneCh`.
We model the sequence of results it observes as a list, in observation
order.  A result is `(package name, optional error message)`; `none` means
success.  The loop state is the pair `(err, killed)` of the named return
value `err` and the `killed` flag; `killed = true` models `close(killCh)`
having happened. -/

/-- One result observed by the synchronizer; `.2 = none` is a success. -/
abbrev CompileResult := String × Option String

/-- One iteration of the synchronizer loop in `Compile`:
successes close the package's signal channel (not modelled here) and leave
the state alone; every failure overwrites `err` and the first failure sets
`killed` (closing `killCh`). -/
def syncStep (st : Option String × Bool) (r : CompileResult) :
    Option String × Bool :=
  match r.2 with
  | none => st
  | some e => (some e, true)

/-- The synchronizer loop of `Compile`, folded over the drained results.
Returns the final `(err, killed)` pair; `Compile` returns `.1`. -/
def compileSync (results : List CompileResult) : Option String × Bool :=
  results.foldl syncStep (none, false)

/-- The first of two options, used to describe which failure survives. -/
def ofirst (a b : Option String) : Option String :=
  match a with
  | some e => some e
  | none => b

/-- The error of the last failure in the drained result list. -/
def lastFailure : List CompileResult → Option String
  | [] => none
  | r :: rest => ofirst (lastFailure rest) r.2

theorem compileSync_foldl (results : List CompileResult)
    (st : Option String × Bool) :
    results.foldl syncStep st =
      (ofirst (lastFailure results) st.1,
        st.2 || results.any (fun r => r.2.isSome)) := by
  induction results generalizing st with
  | nil => simp [lastFailure, ofirst]
  | cons r rest ih =>
    match hr : r.2 with
    | none =>
      rw [List.foldl_cons, show syncStep st r = st by simp [syncStep, hr], ih]
      simp only [List.any_cons, hr, lastFailure, Option.isSome_none]
      cases hl : lastFailure rest <;> simp [ofirst, hl]
    | some e =>
      rw [List.foldl_cons, show syncStep st r = (some e, true) by simp [syncStep, hr],
        ih]
      simp only [List.any_cons, hr, lastFailure]
      cases hl : lastFailure rest <;> cases st.2 <;>
        simp [ofirst, hl, Option.isSome_some]

theorem lastFailure_ne_none (results : List CompileResult)
    (r : CompileResult) (hr : r ∈ results) (hsome : r.2.isSome) :
    lastFailure results ≠ none := by
  induction results with
  | nil => cases hr
  | cons x rest ih =>
    rcases List.mem_cons.mp hr with hx | hx
    · subst hx
      cases hl : lastFailure rest with
      | some e => simp [lastFailure, ofirst, hl]
      | none =>
        simp only [lastFailure, ofirst, hl]
        intro hc
        rw [hc] at hsome
        simp at hsome
    · have := ih hx
      cases hl : lastFailure rest with
      | some e => simp [lastFailure, ofirst, hl]
      | none => exact absurd hl this

/-- C2 (amended): if any drained result is a failure, `Compile` returns the
error of the **last** failure observed by the synchronizer (each failure
overwrites the named return `err`), and the kill channel has been closed. -/
theorem compile_returns_last_failure (results : List CompileResult)
    (h : ∃ r ∈ results, r.2.isSome) :
    (compileSync results).1 = lastFailure results ∧
      (compileSync results).2 = true := by
  obtain ⟨⟨p, oe⟩, hr, hsome⟩ := h
  unfold compileSync
  rw [compileSync_foldl]
  constructor
  · have := lastFailure_ne_none results (p, oe) hr hsome
    cases hl : lastFailure results with
    | some e => simp [ofirst, hl]
    | none => exact absurd hl this
  · simp only [Bool.false_or]
    rw [List.any_eq_true]
    exact ⟨(p, oe), hr, hsome⟩

/-- Witness for `compile_returns_last_failure` at a concrete result list. -/
theorem compile_returns_last_failure_witness :
    (compileSync [("p1", some "err one"), ("p2", none), ("p3", some "err two")]).1 =
        lastFailure [("p1", some "err one"), ("p2", none), ("p3", some "err two")] ∧
      (compileSync [("p1", some "err one"), ("p2", none), ("p3", some "err two")]).2 = true :=
  compile_returns_last_failure _ ⟨("p1", some "err one"), by decide, by decide⟩

/-- C2 counterexample: with two failures drained in order `e1, e2`, `Compile`
returns `e2`, not the first failure `e1` as the claim states. -/
theorem compile_first_failure_counterexample :
    ¬ ((compileSync [("p1", some "e1"), ("p2", some "e2")]).1 = some "e1") := by
  decide

/-! ## The `!binary` textual repair (`release.go`, `loadMetadata`)

`loadMetadata` runs
`yamlBinaryRegexp = regexp.MustCompile(`...`)` with pattern
`([^!])!binary \|-\n` and replacement `$1!!binary |-\n` over the manifest
bytes before YAML parsing.  We model the manifest bytes as `List Char` and
the (leftmost, non-overlapping) regexp replacement as a scanner.  The
scanner carries a fuel argument so that it is structurally recursive; the
fuel is the input length, which is always sufficient since every step
consumes at least one character. -/

/-- The literal part of the regexp pattern: `!binary |-\n`. -/
def binaryPat : List Char :=
  ['!', 'b', 'i', 'n', 'a', 'r', 'y', ' ', '|', '-', '\n']

/-- The replacement emitted after the captured character: `!!binary |-\n`. -/
def binaryRepl : List Char := '!' :: binaryPat

/-- Scanner for `ReplaceAll` of `([^!])!binary \|-\n` → `$1!!binary |-\n`:
at each position, if the current character is not `!` and is followed by the
literal `!binary |-\n`, keep the character, emit the replacement, and resume
after the match (non-overlapping); otherwise keep the character and advance
by one. -/
def repairAux : Nat → List Char → List Char
  | 0, s => s
  | _ + 1, [] => []
  | fuel + 1, c :: rest =>
    if ¬ c = '!' ∧ rest.take 11 = binaryPat then
      c :: binaryRepl ++ repairAux fuel (rest.drop 11)
    else
      c :: repairAux fuel rest

/-- The textual repair applied by `loadMetadata` before `yaml.Unmarshal`. -/
def yamlBinaryRepair (s : List Char) : List Char :=
  repairAux s.length s

/-- Whether the regexp `([^!])!binary \|-\n` matches at offset `i`. -/
def matchAtB (s : List Char) (i : Nat) : Bool :=
  match s.drop i with
  | [] => false
  | c :: rest => decide (¬ c = '!') && decide (rest.take 11 = binaryPat)

theorem repairAux_congr : ∀ (n f1 f2 : Nat) (s : List Char),
    s.length ≤ n → s.length ≤ f1 → s.length ≤ f2 →
    repairAux f1 s = repairAux f2 s := by
  intro n
  induction n with
  | zero =>
    intro f1 f2 s hn _ _
    have : s = [] := List.length_eq_zero.mp (Nat.le_zero.mp hn)
    subst this
    cases f1 <;> cases f2 <;> rfl
  | succ n ih =>
    intro f1 f2 s hn h1 h2
    cases s with
    | nil => cases f1 <;> cases f2 <;> rfl
    | cons c rest =>
      match f1, f2 with
      | g1 + 1, g2 + 1 =>
        simp only [repairAux]
        have hr : rest.length ≤ n := by
          have := Nat.succ_le_succ_iff.mp (by simpa using hn)
          exact this
        have hr1 : rest.length ≤ g1 := Nat.succ_le_succ_iff.mp (by simpa using h1)
        have hr2 : rest.length ≤ g2 := Nat.succ_le_succ_iff.mp (by simpa using h2)
        by_cases hc : ¬ c = '!' ∧ rest.take 11 = binaryPat
        · rw [if_pos hc, if_pos hc]
          have hd : (rest.drop 11).length ≤ rest.length := by
            simp
          rw [ih g1 g2 (rest.drop 11) (le_trans hd hr) (le_trans hd hr1)
            (le_trans hd hr2)]
        · rw [if_neg hc, if_neg hc, ih g1 g2 rest hr hr1 hr2]

theorem yamlBinaryRepair_nil : yamlBinaryRepair [] = [] := rfl

theorem yamlBinaryRepair_cons (c : Char) (rest : List Char) :
    yamlBinaryRepair (c :: rest) =
      if ¬ c = '!' ∧ rest.take 11 = binaryPat then
        c :: binaryRepl ++ yamlBinaryRepair (rest.drop 11)
      else
        c :: yamlBinaryRepair rest := by
  unfold yamlBinaryRepair
  simp only [List.length_cons, repairAux]
  by_cases hc : ¬ c = '!' ∧ rest.take 11 = binaryPat
  · rw [if_pos hc, if_pos hc]
    have hd : (rest.drop 11).length ≤ rest.length := by
      simp
    rw [repairAux_congr rest.length rest.length (rest.drop 11).length
      (rest.drop 11) hd hd le_rfl]
  · rw [if_neg hc, if_neg hc]

theorem matchAtB_cons (c : Char) (rest : List Char) (i : Nat) :
    matchAtB (c :: rest) (i + 1) = matchAtB rest i := by
  simp [matchAtB, List.drop_succ_cons]

theorem yamlBinaryRepair_no_match : ∀ (s : List Char),
    (∀ i, matchAtB s i = false) → yamlBinaryRepair s = s := by
  intro s
  induction s with
  | nil => intro _; rfl
  | cons c rest ih =>
    intro h
    have h0 := h 0
    simp only [matchAtB, List.drop_zero, Bool.and_eq_false_iff,
      decide_eq_false_iff_not, not_not] at h0
    rw [yamlBinaryRepair_cons, if_neg ?_, ih ?_]
    · intro i
      rw [← matchAtB_cons c rest i]
      exact h (i + 1)
    · rintro ⟨hc, hp⟩
      rcases h0 with h0 | h0
      · exact hc h0
      · exact absurd hp (by simpa using h0)

theorem yamlBinaryRepair_leftmost_match : ∀ (i : Nat) (s : List Char),
    matchAtB s i = true → (∀ j, j < i → matchAtB s j = false) →
    yamlBinaryRepair s =
      s.take (i + 1) ++ binaryRepl ++ yamlBinaryRepair (s.drop (i + 12)) := by
  intro i
  induction i with
  | zero =>
    intro s hm _
    cases s with
    | nil => simp [matchAtB] at hm
    | cons c rest =>
      simp only [matchAtB, List.drop_zero, Bool.and_eq_true,
        decide_eq_true_eq] at hm
      rw [yamlBinaryRepair_cons, if_pos hm]
      simp [List.take_succ_cons, List.drop_succ_cons]
  | succ i ih =>
    intro s hm hlow
    cases s with
    | nil => simp [matchAtB] at hm
    | cons c rest =>
      have h0 := hlow 0 (Nat.succ_pos i)
      simp only [matchAtB, List.drop_zero, Bool.and_eq_false_iff,
        decide_eq_false_iff_not, not_not] at h0
      rw [yamlBinaryRepair_cons, if_neg ?_]
      · rw [ih rest ?_ ?_]
        · simp [List.take_succ_cons, List.drop_succ_cons]
        · rw [← matchAtB_cons c rest i]; exact hm
        · intro j hj
          rw [← matchAtB_cons c rest j]
          exact hlow (j + 1) (Nat.succ_lt_succ hj)
      · rintro ⟨hc, hp⟩
        rcases h0 with h0 | h0
        · exact hc h0
        · exact absurd hp (by simpa using h0)

/-- C8 (amended): the textual repair in `loadMetadata` performs leftmost,
non-overlapping replacement of the guarded pattern "a character other than
`!` followed by `!binary |-\n`", keeping the guard character and rewriting
the tag to `!!binary |-\n`; input with no such occurrence is returned
unchanged.  (Occurrences of the bare token `!binary` in any other context,
including at the very start of the input, are *not* rewritten.) -/
theorem yamlBinaryRepair_spec (s : List Char) :
    ((∀ i, matchAtB s i = false) → yamlBinaryRepair s = s) ∧
      (∀ i, matchAtB s i = true → (∀ j, j < i → matchAtB s j = false) →
        yamlBinaryRepair s =
          s.take (i + 1) ++ binaryRepl ++ yamlBinaryRepair (s.drop (i + 12))) :=
  ⟨yamlBinaryRepair_no_match s, fun i hm hlow =>
    yamlBinaryRepair_leftmost_match i s hm hlow⟩

/-- Witness for `yamlBinaryRepair_spec`: a Psych-emitted tag
`sha1: !binary |-` is repaired to the double-bang form. -/
theorem yamlBinaryRepair_spec_witness :
    yamlBinaryRepair (String.toList "sha1: !binary |-\n") =
      String.toList "sha1: !!binary |-\n" := by
  have h := (yamlBinaryRepair_spec (String.toList "sha1: !binary |-\n")).2 5
    (by decide) (by decide)
  rw [h]
  decide

/-- Formalisation of the words of claim C8: rewrite *every* occurrence of
the tag token `!binary` (one with a single exclamation mark, i.e. not
preceded by `!`) to `!!binary`, regardless of what follows the token.
Used only to state the counterexample. -/
def claimedBinaryRewrite (s : List Char) : List Char :=
  claimedAux s.length none s
where
  claimedAux : Nat → Option Char → List Char → List Char
    | 0, _, s => s
    | _ + 1, _, [] => []
    | fuel + 1, prev, c :: rest =>
      if c = '!' ∧ ¬ prev = some '!' ∧
          rest.take 6 = ['b', 'i', 'n', 'a', 'r', 'y'] then
        '!' :: '!' :: ['b', 'i', 'n', 'a', 'r', 'y'] ++
          claimedAux fuel (some 'y') (rest.drop 6)
      else
        c :: claimedAux fuel (some c) rest

/-- C8 counterexample: on the input `name: !binary x` the code leaves the
single-bang tag untouched (the regexp requires the literal ` |-` and a
newline after the token), while the claim demands it be rewritten to
`!!binary`. -/
theorem yamlBinaryRepair_counterexample :
    yamlBinaryRepair (String.toList "name: !binary x") ≠
      claimedBinaryRewrite (String.toList "name: !binary x") := by
  decide

/-! ## AggregateSignatures (`instance_groups.go`)

`AggregateSignatures` feeds each signature string followed by a NUL byte to
a SHA-1 hasher, then the ASCII decimal of the total signature length, and
returns the hex digest.  Go strings are byte strings, modelled as
`List Nat`.  We embed SHA-1 itself (Go `crypto/sha1`, FIPS 180-1) so the
digest is a concrete value. -/

/-- `2^32`, the word size of SHA-1 arithmetic. -/
def w32 : Nat := 4294967296

/-- 32-bit left rotation (inputs below `2^32`). -/
def rotl (k n : Nat) : Nat := (n * 2 ^ k) % w32 + n / 2 ^ (32 - k)

/-- Big-endian 8-byte encoding of the bit length (SHA-1 padding tail). -/
def be64 (n : Nat) : List Nat :=
  [n / 2 ^ 56 % 256, n / 2 ^ 48 % 256, n / 2 ^ 40 % 256, n / 2 ^ 32 % 256,
    n / 2 ^ 24 % 256, n / 2 ^ 16 % 256, n / 2 ^ 8 % 256, n % 256]

/-- Big-endian 4-byte encoding of a 32-bit word. -/
def be32 (n : Nat) : List Nat :=
  [n / 2 ^ 24 % 256, n / 2 ^ 16 % 256, n / 2 ^ 8 % 256, n % 256]

/-- SHA-1 padding: `0x80`, zeros to 56 mod 64, then the bit length. -/
def sha1Pad (msg : List Nat) : List Nat :=
  msg ++ 128 :: List.replicate ((119 - msg.length % 64) % 64) 0 ++
    be64 (msg.length * 8)

/-- Big-endian 32-bit words from bytes (input length a multiple of 4). -/
def toWords : List Nat → List Nat
  | b0 :: b1 :: b2 :: b3 :: rest =>
    (((b0 * 256 + b1) * 256 + b2) * 256 + b3) :: toWords rest
  | _ => []

/-- Split a word list into blocks of sixteen 32-bit words. -/
def blocks16Aux : Nat → List Nat → List (List Nat)
  | 0, _ => []
  | _ + 1, [] => []
  | fuel + 1, ws => ws.take 16 :: blocks16Aux fuel (ws.drop 16)

/-- Message-schedule extension of a 16-word block to 80 words. -/
def extendW : Nat → List Nat → List Nat
  | 0, w => w
  | fuel + 1, w =>
    if w.length < 80 then
      extendW fuel (w ++ [rotl 1 (w.getD (w.length - 3) 0 ^^^
        w.getD (w.length - 8) 0 ^^^ w.getD (w.length - 14) 0 ^^^
        w.getD (w.length - 16) 0)])
    else w

/-- The five SHA-1 chaining words. -/
structure Sha1State where
  a : Nat
  b : Nat
  c : Nat
  d : Nat
  e : Nat

/-- Round function `f` of SHA-1 for round `i`. -/
def sha1F (i b c d : Nat) : Nat :=
  if i < 20 then (b &&& c) ||| ((4294967295 - b) &&& d)
  else if i < 40 then b ^^^ c ^^^ d
  else if i < 60 then (b &&& c) ||| (b &&& d) ||| (c &&& d)
  else b ^^^ c ^^^ d

/-- Round constant `k` of SHA-1 for round `i`. -/
def sha1K (i : Nat) : Nat :=
  if i < 20 then 0x5A827999
  else if i < 40 then 0x6ED9EBA1
  else if i < 60 then 0x8F1BBCDC
  else 0xCA62C1D6

/-- One SHA-1 round, folded over the indexed 80-word schedule. -/
def sha1Round (st : Sha1State) (iw : Nat × Nat) : Sha1State :=
  let temp := (rotl 5 st.a + sha1F iw.1 st.b st.c st.d + st.e +
    sha1K iw.1 + iw.2) % w32
  ⟨temp, st.a, rotl 30 st.b, st.c, st.d⟩

/-- Process one 16-word block. -/
def processBlock (h : Sha1State) (block : List Nat) : Sha1State :=
  let fin := (extendW 64 block).enum.foldl sha1Round h
  ⟨(h.a + fin.a) % w32, (h.b + fin.b) % w32, (h.c + fin.c) % w32,
    (h.d + fin.d) % w32, (h.e + fin.e) % w32⟩

/-- The SHA-1 initial chaining value. -/
def sha1IV : Sha1State :=
  ⟨0x67452301, 0xEFCDAB89, 0x98BADCFE, 0x10325476, 0xC3D2E1F0⟩

/-- SHA-1 digest (20 bytes) of a byte string. -/
def sha1Bytes (msg : List Nat) : List Nat :=
  let ws := toWords (sha1Pad msg)
  let st := (blocks16Aux (ws.length + 1) ws).foldl processBlock sha1IV
  be32 st.a ++ be32 st.b ++ be32 st.c ++ be32 st.d ++ be32 st.e

/-- Lower-case hex digit. -/
def hexChar (n : Nat) : Char :=
  if n < 10 then Char.ofNat (48 + n) else Char.ofNat (87 + n)

/-- `hex.EncodeToString` over a byte list. -/
def bytesToHex (bs : List Nat) : String :=
  String.mk ((bs.map (fun b => [hexChar (b / 16), hexChar (b % 16)])).flatten)

/-- ASCII decimal digits of `n`; Go `fmt.Sprintf("%d", length)`.  The first
argument is fuel (the recursion divides by ten, so `n` itself is enough). -/
def natDecimalAux : Nat → Nat → List Nat
  | 0, n => [48 + n % 10]
  | fuel + 1, n => if n < 10 then [48 + n] else natDecimalAux fuel (n / 10) ++ [48 + n % 10]

/-- ASCII decimal representation of a natural number. -/
def natDecimal (n : Nat) : List Nat := natDecimalAux n n

/-- The byte stream `AggregateSignatures` feeds to the SHA-1 hasher: the
loop writes each signature followed by a NUL separator while accumulating
the total signature length, then writes the decimal length. -/
def aggregateInput (signatures : List (List Nat)) : List Nat :=
  (signatures.foldl (fun acc s => acc ++ s ++ [0]) []) ++
    natDecimal (signatures.foldl (fun n s => n + s.length) 0)

/-- `AggregateSignatures`: hex SHA-1 of the separated, length-terminated
signature stream. -/
def AggregateSignatures (signatures : List (List Nat)) : String :=
  bytesToHex (sha1Bytes (aggregateInput signatures))

/-- The signature stream without the trailing decimal length: each
signature followed by a NUL separator. -/
def sepBody : List (List Nat) → List Nat
  | [] => []
  | s :: ss => s ++ 0 :: sepBody ss

theorem sepBody_foldl (ss : List (List Nat)) :
    ∀ acc, ss.foldl (fun acc s => acc ++ s ++ [0]) acc = acc ++ sepBody ss := by
  induction ss with
  | nil => intro acc; simp [sepBody]
  | cons s rest ih =>
    intro acc
    rw [List.foldl_cons, ih]
    simp [sepBody]

theorem natDecimalAux_mem_ge (fuel n : Nat) :
    ∀ b ∈ natDecimalAux fuel n, 48 ≤ b := by
  induction fuel generalizing n with
  | zero =>
    intro b hb
    simp only [natDecimalAux, List.mem_singleton] at hb
    omega
  | succ fuel ih =>
    intro b hb
    simp only [natDecimalAux] at hb
    split at hb
    · simp only [List.mem_singleton] at hb; omega
    · rcases List.mem_append.mp hb with h | h
      · exact ih _ b h
      · simp only [List.mem_singleton] at h; omega

theorem natDecimalAux_ne_nil (fuel n : Nat) : natDecimalAux fuel n ≠ [] := by
  cases fuel with
  | zero => simp [natDecimalAux]
  | succ fuel =>
    simp only [natDecimalAux]
    split
    · simp
    · simp

theorem natDecimal_zero_free (n : Nat) : 0 ∉ natDecimal n := by
  intro h
  have := natDecimalAux_mem_ge n n 0 h
  omega

theorem natDecimal_ne_nil (n : Nat) : natDecimal n ≠ [] :=
  natDecimalAux_ne_nil n n

theorem sep_split_inj : ∀ (s t u v : List Nat), 0 ∉ s → 0 ∉ t →
    s ++ 0 :: u = t ++ 0 :: v → s = t ∧ u = v := by
  intro s
  induction s with
  | nil =>
    intro t u v _ ht h
    cases t with
    | nil => simpa using h
    | cons b t' =>
      exfalso
      simp only [List.nil_append, List.cons_append, List.cons.injEq] at h
      apply ht
      rw [← h.1]
      exact List.mem_cons_self 0 t'
  | cons a s' ih =>
    intro t u v hs ht h
    cases t with
    | nil =>
      exfalso
      simp only [List.cons_append, List.nil_append, List.cons.injEq] at h
      apply hs
      rw [h.1]
      exact List.mem_cons_self 0 s'
    | cons b t' =>
      simp only [List.cons_append, List.cons.injEq] at h
      obtain ⟨rfl, h2⟩ := h
      have := ih t' u v (fun hm => hs (List.mem_cons_of_mem a hm))
        (fun hm => ht (List.mem_cons_of_mem a hm)) h2
      exact ⟨by rw [this.1], this.2⟩

theorem sepBody_inj : ∀ (xs ys : List (List Nat)),
    (∀ s ∈ xs, 0 ∉ s) → (∀ s ∈ ys, 0 ∉ s) →
    sepBody xs = sepBody ys → xs = ys := by
  intro xs
  induction xs with
  | nil =>
    intro ys _ _ h
    cases ys with
    | nil => rfl
    | cons s ss =>
      exfalso
      simp only [sepBody] at h
      exact (List.cons_ne_nil 0 (sepBody ss)) (by
        cases s with
        | nil => exact h.symm
        | cons b s' => simp at h)
  | cons s ss ih =>
    intro ys hxs hys h
    cases ys with
    | nil =>
      exfalso
      simp only [sepBody] at h
      cases s with
      | nil => exact (List.cons_ne_nil 0 (sepBody ss)) h
      | cons b s' => simp at h
    | cons t ts =>
      simp only [sepBody] at h
      have := sep_split_inj s t (sepBody ss) (sepBody ts)
        (hxs s (List.mem_cons_self s ss)) (hys t (List.mem_cons_self t ts)) h
      obtain ⟨rfl, h2⟩ := this
      rw [ih ts (fun x hx => hxs x (List.mem_cons_of_mem s hx))
        (fun x hx => hys x (List.mem_cons_of_mem s hx)) h2]

theorem sepBody_ends_zero : ∀ (xs : List (List Nat)), xs ≠ [] →
    ∃ t, sepBody xs = t ++ [0] := by
  intro xs
  induction xs with
  | nil => intro h; exact absurd rfl h
  | cons s ss ih =>
    intro _
    cases hss : ss with
    | nil => exact ⟨s, by simp [sepBody]⟩
    | cons t ts =>
      obtain ⟨u, hu⟩ := ih (by simp [hss])
      rw [← hss]
      exact ⟨s ++ 0 :: u, by simp [sepBody, hu]⟩

theorem body_digits_split (b1 b2 d1 d2 : List Nat)
    (hb1 : b1 = [] ∨ ∃ t, b1 = t ++ [0])
    (hb2 : b2 = [] ∨ ∃ t, b2 = t ++ [0])
    (hd1 : 0 ∉ d1) (hd2 : 0 ∉ d2)
    (h : b1 ++ d1 = b2 ++ d2) : b1 = b2 := by
  rcases List.append_eq_append_iff.mp h with ⟨m, hm1, hm2⟩ | ⟨m, hm1, hm2⟩
  · -- b2 = b1 ++ m, d1 = m ++ d2
    cases hmn : m with
    | nil => rw [hm1, hmn, List.append_nil]
    | cons x xs =>
      exfalso
      rcases hb2 with h2 | ⟨t, ht⟩
      · rw [h2] at hm1
        exact (List.cons_ne_nil x xs) (by
          rw [hmn] at hm1
          exact (List.append_eq_nil.mp hm1.symm).2)
      · have hlast : m.getLast? = some 0 := by
          have hb : b2.getLast? = some 0 := by rw [ht]; simp
          rw [hm1, List.getLast?_append_of_ne_nil b1
            (show m ≠ [] by rw [hmn]; simp)] at hb
          exact hb
        have h0m : (0 : Nat) ∈ m := by
          obtain ⟨hne, hx⟩ := List.mem_getLast?_eq_getLast
            (Option.mem_def.mpr hlast)
          rw [hx]
          exact List.getLast_mem hne
        have : (0 : Nat) ∈ d1 := by rw [hm2]; exact List.mem_append_left _ h0m
        exact hd1 this
  · -- b1 = b2 ++ m, d2 = m ++ d1
    cases hmn : m with
    | nil => rw [hm1, hmn, List.append_nil]
    | cons x xs =>
      exfalso
      rcases hb1 with h1 | ⟨t, ht⟩
      · rw [h1] at hm1
        exact (List.cons_ne_nil x xs) (by
          rw [hmn] at hm1
          exact (List.append_eq_nil.mp hm1.symm).2)
      · have hlast : m.getLast? = some 0 := by
          have hb : b1.getLast? = some 0 := by rw [ht]; simp
          rw [hm1, List.getLast?_append_of_ne_nil b2
            (show m ≠ [] by rw [hmn]; simp)] at hb
          exact hb
        have h0m : (0 : Nat) ∈ m := by
          obtain ⟨hne, hx⟩ := List.mem_getLast?_eq_getLast
            (Option.mem_def.mpr hlast)
          rw [hx]
          exact List.getLast_mem hne
        have : (0 : Nat) ∈ d2 := by rw [hm2]; exact List.mem_append_left _ h0m
        exact hd2 this

/-- C1 (amended): the byte stream fed to the SHA-1 hasher by
`AggregateSignatures` is injective over sequences of NUL-free strings:
distinct NUL-free signature sequences always produce distinct hasher
inputs (and hence distinct digests, short of a SHA-1 collision).  The
restriction to NUL-free strings is forced: sequences whose strings contain
NUL bytes can collide (see the counterexample). -/
theorem aggregateInput_injective (xs ys : List (List Nat))
    (hxs : ∀ s ∈ xs, 0 ∉ s) (hys : ∀ s ∈ ys, 0 ∉ s)
    (hne : xs ≠ ys) : aggregateInput xs ≠ aggregateInput ys := by
  intro h
  apply hne
  unfold aggregateInput at h
  rw [sepBody_foldl xs [], sepBody_foldl ys [], List.nil_append,
    List.nil_append] at h
  have hb : sepBody xs = sepBody ys := by
    apply body_digits_split (sepBody xs) (sepBody ys) _ _ _ _
      (natDecimal_zero_free _) (natDecimal_zero_free _) h
    · cases hx : xs with
      | nil => exact Or.inl rfl
      | cons s ss => exact Or.inr (by rw [← hx]; exact sepBody_ends_zero xs (by simp [hx]))
    · cases hy : ys with
      | nil => exact Or.inl rfl
      | cons s ss => exact Or.inr (by rw [← hy]; exact sepBody_ends_zero ys (by simp [hy]))
  exact sepBody_inj xs ys hxs hys hb

/-- Witness for `aggregateInput_injective`: the two sequences of the spec's
scenario 6, `["ab","a"]` and `["a","ba"]` (as bytes), feed distinct streams
to the hasher. -/
theorem aggregateInput_injective_witness :
    aggregateInput [[97, 98], [97]] ≠ aggregateInput [[97], [98, 97]] :=
  aggregateInput_injective [[97, 98], [97]] [[97], [98, 97]]
    (by decide) (by decide) (by decide)

/-- C1 counterexample: `AggregateSignatures` is *not* injective over all
string sequences.  The sequences `["a\x00", "b"]` and `["a", "\x00b"]`
differ, yet produce byte-identical hasher input (`a 0 0 b 0 "3"`) and hence
the same SHA-1 hex digest. -/
theorem aggregateSignatures_counterexample :
    AggregateSignatures [[97, 0], [98]] = AggregateSignatures [[97], [0, 98]] ∧
      ¬ ([[97, 0], [98]] = ([[97], [0, 98]] : List (List Nat))) := by
  constructor
  · have h : aggregateInput [[97, 0], [98]] = aggregateInput [[97], [0, 98]] := by
      decide
    unfold AggregateSignatures
    rw [h]
  · decide

/-! ## Package gathering and deduplication (`compilator.go`, `gatherPackages`)

A `model.Package` as used by the compilator: its name, its source
fingerprint, and the fingerprints of its `Dependencies` (the only package
fields `gatherPackages`/`createDepBuckets` read; dependency names appear
only in log lines). -/

structure Package where
  name : String
  fingerprint : String
  dependencies : List String
deriving DecidableEq, Repr

/-- The body of the dedup loop in `gatherPackages` (marked `(%%)` in the
source): the first component is the key set of `c.signalDependencies` (each
key owns a fresh signal channel; channels carry no data, so only the key
set is modelled), the second the collected package list.  A package whose
fingerprint is already known is skipped. -/
def gatherStep (st : List String × List Package) (pkg : Package) :
    List String × List Package :=
  if pkg.fingerprint ∈ st.1 then st
  else (st.1 ++ [pkg.fingerprint], st.2 ++ [pkg])

/-- `gatherPackages`: iterate the releases (each contributing its package
list — `release.Packages`, or the instance-group subset; the argument is
the per-release lists either way) and collect each not-yet-known
fingerprint's first package. -/
def gatherPackages (releasePackages : List (List Package)) : List Package :=
  (releasePackages.foldl (fun st ps => ps.foldl gatherStep st) ([], [])).2

/-- Reference form of the dedup loop carrying the seen-fingerprint set. -/
def firstNewAux : List String → List Package → List Package
  | _, [] => []
  | seen, p :: ps =>
    if p.fingerprint ∈ seen then firstNewAux seen ps
    else p :: firstNewAux (seen ++ [p.fingerprint]) ps

/-- Statement of the claim's words for C4: keep only the first package
encountered for each fingerprint (fuel-based for structural recursion). -/
def firstPerFpAux : Nat → List Package → List Package
  | 0, _ => []
  | _ + 1, [] => []
  | fuel + 1, p :: ps =>
    p :: firstPerFpAux fuel (ps.filter (fun q => ¬ q.fingerprint = p.fingerprint))

/-- The first package encountered per distinct fingerprint, in order. -/
def firstPerFingerprint (ps : List Package) : List Package :=
  firstPerFpAux ps.length ps

theorem gather_foldl_flatten (L : List (List Package)) :
    ∀ st, L.foldl (fun st ps => ps.foldl gatherStep st) st =
      L.flatten.foldl gatherStep st := by
  induction L with
  | nil => intro st; rfl
  | cons ps rest ih =>
    intro st
    rw [List.foldl_cons, ih, List.flatten_cons, List.foldl_append]

theorem gather_foldl_spec (l : List Package) :
    ∀ (seen : List String) (acc : List Package),
      l.foldl gatherStep (seen, acc) =
        (seen ++ (firstNewAux seen l).map Package.fingerprint,
          acc ++ firstNewAux seen l) := by
  induction l with
  | nil => intro seen acc; simp [firstNewAux]
  | cons p ps ih =>
    intro seen acc
    by_cases hp : p.fingerprint ∈ seen
    · rw [List.foldl_cons, show gatherStep (seen, acc) p = (seen, acc) by
        simp [gatherStep, hp], ih]
      simp [firstNewAux, hp]
    · rw [List.foldl_cons, show gatherStep (seen, acc) p =
        (seen ++ [p.fingerprint], acc ++ [p]) by simp [gatherStep, hp], ih]
      simp [firstNewAux, hp]

theorem firstPerFpAux_congr : ∀ (n f1 f2 : Nat) (l : List Package),
    l.length ≤ n → l.length ≤ f1 → l.length ≤ f2 →
    firstPerFpAux f1 l = firstPerFpAux f2 l := by
  intro n
  induction n with
  | zero =>
    intro f1 f2 l hn _ _
    have : l = [] := List.length_eq_zero.mp (Nat.le_zero.mp hn)
    subst this
    cases f1 <;> cases f2 <;> rfl
  | succ n ih =>
    intro f1 f2 l hn h1 h2
    cases l with
    | nil => cases f1 <;> cases f2 <;> rfl
    | cons p ps =>
      match f1, f2 with
      | g1 + 1, g2 + 1 =>
        simp only [firstPerFpAux, List.cons.injEq, true_and]
        have hf : (ps.filter (fun q => ¬ q.fingerprint = p.fingerprint)).length ≤
            ps.length := List.length_filter_le _ _
        have hn' : ps.length ≤ n := by simp only [List.length_cons] at hn; omega
        have h1' : ps.length ≤ g1 := by simp only [List.length_cons] at h1; omega
        have h2' : ps.length ≤ g2 := by simp only [List.length_cons] at h2; omega
        exact ih g1 g2 _ (le_trans hf hn') (le_trans hf h1') (le_trans hf h2')

theorem firstNewAux_filter : ∀ (fuel : Nat) (l : List Package) (seen : List String),
    l.length ≤ fuel →
    firstNewAux seen l =
      firstPerFpAux fuel (l.filter (fun q => ¬ q.fingerprint ∈ seen)) := by
  intro fuel
  induction fuel with
  | zero =>
    intro l seen hl
    have : l = [] := List.length_eq_zero.mp (Nat.le_zero.mp hl)
    subst this
    rfl
  | succ fuel ih =>
    intro l seen hl
    cases l with
    | nil => rfl
    | cons p ps =>
      have hps : ps.length ≤ fuel := by simp only [List.length_cons] at hl; omega
      by_cases hp : p.fingerprint ∈ seen
      · simp only [firstNewAux, hp, if_true, List.filter_cons]
        rw [if_neg (by simp [hp])]
        rw [ih ps seen hps]
        have hf : (ps.filter (fun q => ¬ q.fingerprint ∈ seen)).length ≤ ps.length :=
          List.length_filter_le _ _
        exact firstPerFpAux_congr (fuel + 1) fuel (fuel + 1) _
          (le_trans hf (le_trans hps (Nat.le_succ fuel)))
          (le_trans hf hps) (le_trans hf (le_trans hps (Nat.le_succ fuel)))
      · simp only [firstNewAux, hp, if_false, List.filter_cons]
        rw [if_pos (by simp [hp])]
        simp only [firstPerFpAux, List.cons.injEq, true_and]
        rw [ih ps (seen ++ [p.fingerprint]) hps, List.filter_filter]
        congr 1
        apply List.filter_congr
        intro q _
        by_cases h1 : q.fingerprint ∈ seen <;>
          by_cases h2 : q.fingerprint = p.fingerprint <;> simp [h1, h2]

theorem firstNewAux_not_seen : ∀ (l : List Package) (seen : List String)
    (x : Package), x ∈ firstNewAux seen l → ¬ x.fingerprint ∈ seen := by
  intro l
  induction l with
  | nil => intro seen x hx; cases hx
  | cons p ps ih =>
    intro seen x hx
    by_cases hp : p.fingerprint ∈ seen
    · rw [firstNewAux, if_pos hp] at hx
      exact ih seen x hx
    · rw [firstNewAux, if_neg hp] at hx
      rcases List.mem_cons.mp hx with rfl | hx
      · exact hp
      · intro hs
        exact ih (seen ++ [p.fingerprint]) x hx (List.mem_append_left _ hs)

theorem firstNewAux_nodup : ∀ (l : List Package) (seen : List String),
    ((firstNewAux seen l).map Package.fingerprint).Nodup := by
  intro l
  induction l with
  | nil => intro seen; simp [firstNewAux]
  | cons p ps ih =>
    intro seen
    by_cases hp : p.fingerprint ∈ seen
    · rw [firstNewAux, if_pos hp]; exact ih seen
    · rw [firstNewAux, if_neg hp]
      simp only [List.map_cons, List.nodup_cons]
      refine ⟨?_, ih (seen ++ [p.fingerprint])⟩
      intro hmem
      obtain ⟨x, hx, hfp⟩ := List.mem_map.mp hmem
      exact firstNewAux_not_seen ps (seen ++ [p.fingerprint]) x hx
        (List.mem_append_right _ (by simp [hfp]))

theorem firstNewAux_complete : ∀ (l : List Package) (seen : List String)
    (q : Package), q ∈ l → ¬ q.fingerprint ∈ seen →
    q.fingerprint ∈ (firstNewAux seen l).map Package.fingerprint := by
  intro l
  induction l with
  | nil => intro seen q hq _; cases hq
  | cons p ps ih =>
    intro seen q hq hqs
    by_cases hp : p.fingerprint ∈ seen
    · rw [firstNewAux, if_pos hp]
      rcases List.mem_cons.mp hq with rfl | hq
      · exact absurd hp hqs
      · exact ih seen q hq hqs
    · rw [firstNewAux, if_neg hp]
      rcases List.mem_cons.mp hq with rfl | hq
      · simp
      · by_cases hfp : q.fingerprint = p.fingerprint
        · simp [hfp]
        · simp only [List.map_cons, List.mem_cons]
          refine Or.inr (ih (seen ++ [p.fingerprint]) q hq ?_)
          intro hs
          rcases List.mem_append.mp hs with hs | hs
          · exact hqs hs
          · exact hfp (by simpa using hs)

theorem firstNewAux_subset : ∀ (l : List Package) (seen : List String)
    (x : Package), x ∈ firstNewAux seen l → x ∈ l := by
  intro l
  induction l with
  | nil => intro seen x hx; cases hx
  | cons p ps ih =>
    intro seen x hx
    by_cases hp : p.fingerprint ∈ seen
    · rw [firstNewAux, if_pos hp] at hx
      exact List.mem_cons_of_mem p (ih seen x hx)
    · rw [firstNewAux, if_neg hp] at hx
      rcases List.mem_cons.mp hx with rfl | hx
      · exact List.mem_cons_self x ps
      · exact List.mem_cons_of_mem p (ih (seen ++ [p.fingerprint]) x hx)

/-- C4: `gatherPackages` enqueues, across all releases, exactly the first
package encountered for each distinct source fingerprint: the result is the
first-per-fingerprint subsequence of the concatenated release package
lists, its fingerprints are pairwise distinct, every input fingerprint is
represented, and every output package is an input package.  (Hence each
distinct fingerprint is submitted to — and compiled by — the worker pool at
most once per run.) -/
theorem gatherPackages_dedup (releasePackages : List (List Package)) :
    gatherPackages releasePackages = firstPerFingerprint releasePackages.flatten ∧
      ((gatherPackages releasePackages).map Package.fingerprint).Nodup ∧
      (∀ p ∈ releasePackages.flatten,
        p.fingerprint ∈ (gatherPackages releasePackages).map Package.fingerprint) ∧
      (∀ q ∈ gatherPackages releasePackages, q ∈ releasePackages.flatten) := by
  have key : gatherPackages releasePackages = firstNewAux [] releasePackages.flatten := by
    unfold gatherPackages
    rw [gather_foldl_flatten, gather_foldl_spec]
    simp
  have hfil : releasePackages.flatten.filter
      (fun q => ¬ q.fingerprint ∈ ([] : List String)) = releasePackages.flatten :=
    List.filter_eq_self.mpr (fun a _ => by simp)
  refine ⟨?_, ?_, ?_, ?_⟩
  · rw [key, firstNewAux_filter releasePackages.flatten.length _ [] le_rfl, hfil]
    rfl
  · rw [key]; exact firstNewAux_nodup _ []
  · intro p hp
    rw [key]
    exact firstNewAux_complete _ [] p hp (by simp)
  · intro q hq
    rw [key] at hq
    exact firstNewAux_subset _ [] q hq

/-! ## Property merger (`GetPropertiesForJob`, model package)

Open-ended YAML trees are a sum of null, scalars, sequences and string-keyed
mappings — exactly what `yaml.v2` produces when unmarshalling into
`interface{}` (`nil`, scalars, `[]interface{}`,
`map[interface{}]interface{}` with string keys in practice). -/

inductive YamlVal where
  | null
  | str (s : String)
  | int (n : Int)
  | bool (b : Bool)
  | seq (items : List YamlVal)
  | map (entries : List (String × YamlVal))

/-- The Go `reflect.Kind` of an unmarshalled YAML value.  The `array` kind
is listed because the source tests for it, but `yaml.v2` never produces a
value of kind `Array`: YAML sequences unmarshal to `[]interface{}`, whose
kind is `Slice`. -/
inductive GoKind where
  | map
  | slice
  | array
  | string
  | int
  | bool
  | invalid
deriving DecidableEq

/-- `reflect.TypeOf(v).Kind()` of a yaml.v2 value (`invalid` stands for the
`nil` interface, which the source guards against before calling `Kind`). -/
def goKind : YamlVal → GoKind
  | .null => .invalid
  | .str _ => .string
  | .int _ => .int
  | .bool _ => .bool
  | .seq _ => .slice
  | .map _ => .map

/-- Splits a character list on dots. -/
def splitDotsAux : List Char → List Char → List String
  | [], acc => [String.mk acc.reverse]
  | c :: rest, acc =>
    if c = '.' then String.mk acc.reverse :: splitDotsAux rest []
    else splitDotsAux rest (c :: acc)

/-- Modelled from the spec: `getKeyGrams` splits the property name on dots
into key grams (the helper itself is outside the provided sources). -/
def getKeyGrams (name : String) : List String :=
  splitDotsAux name.toList []

/-- Modelled from the spec: `getOpinionValue` looks up the gram path in an
opinions tree, descending through nested mappings; a missing key or an
attempt to descend into a non-mapping yields no value (the helper itself is
outside the provided sources). -/
def getOpinionValue : YamlVal → List String → Option YamlVal
  | v, [] => some v
  | .map entries, k :: rest =>
    match alookup entries k with
    | some v => getOpinionValue v rest
    | none => none
  | _, _ :: _ => none

/-- Modelled from the spec: `insertConfig` inserts the value back into the
output tree along the gram path, creating intermediate maps; extending a
non-map is an error (the helper itself is outside the provided sources). -/
def insertConfig (m : List (String × YamlVal)) :
    List String → YamlVal → Except String (List (String × YamlVal))
  | [], _ => .error "insertConfig: empty property name"
  | [k], value => .ok (aset m k value)
  | k :: g :: rest, value =>
    match alookup m k with
    | none =>
      match insertConfig [] (g :: rest) value with
      | .ok sub => .ok (aset m k (.map sub))
      | .error e => .error e
    | some (.map sub) =>
      match insertConfig sub (g :: rest) value with
      | .ok sub2 => .ok (aset m k (.map sub2))
      | .error e => .error e
    | some _ => .error "insertConfig: attempting to extend a non-map"

/-- A `JobProperty` as read from the job spec: name and declared default. -/
structure JobProperty where
  name : String
  default : YamlVal

/-- The light/dark opinions pair, each a top-level YAML document. -/
structure Opinions where
  light : List (String × YamlVal)
  dark : List (String × YamlVal)

/-- The per-property loop of `GetPropertiesForJob`: check the dark
opinions (a key is an excluded leaf only when a value exists and is
neither `nil`-guarded... precisely: a `nil` dark value excludes, and a
non-`nil` dark value excludes exactly when its reflect kind is neither
`Map` nor `Array`); then prefer a non-`nil` light value over the declared
default; then insert into the output tree. -/
def mergeProps (lightProps darkProps : List (String × YamlVal)) :
    List JobProperty → List (String × YamlVal) →
    Except String (List (String × YamlVal))
  | [], props => .ok props
  | property :: rest, props =>
    let keyPieces := getKeyGrams property.name
    let excluded :=
      match getOpinionValue (.map darkProps) keyPieces with
      | some .null => true
      | some darkValue =>
        decide (¬ goKind darkValue = GoKind.map ∧ ¬ goKind darkValue = GoKind.array)
      | none => false
    if excluded then mergeProps lightProps darkProps rest props
    else
      let finalValue :=
        match getOpinionValue (.map lightProps) keyPieces with
        | some .null => property.default
        | some lightValue => lightValue
        | none => property.default
      match insertConfig props keyPieces finalValue with
      | .ok props2 => mergeProps lightProps darkProps rest props2
      | .error e => .error e

/-- `GetPropertiesForJob`: fetch the `properties` mappings of the light and
dark opinions documents, then run the per-property merge loop over the
job's properties. -/
def GetPropertiesForJob (properties : List JobProperty) (opinions : Opinions) :
    Except String (List (String × YamlVal)) :=
  match alookup opinions.light "properties" with
  | none => .error "getPropertiesForJob: no properties key in light opinions"
  | some lightOpinions =>
    match alookup opinions.dark "properties" with
    | none => .error "getPropertiesForJob: no properties key in dark opinions"
    | some darkOpinions =>
      match lightOpinions with
      | .map lightProps =>
        match darkOpinions with
        | .map darkProps => mergeProps lightProps darkProps properties []
        | _ => .error "getPropertiesForJob: cannot convert darkOpinions"
      | _ => .error "getPropertiesForJob: cannot convert lightOpinions"

/-- C3, behaviour of the dark-opinion exclusion at concrete inputs, for the
property `a.b.c` with default `42` and empty light overrides:
a dark **sequence** leaf `{a: {b: {c: [1]}}}` *drops* the property (its
reflect kind is `Slice`, which the source's `kind != reflect.Map && kind
!= reflect.Array` test does not exempt) — the claim (and the code's own
comment) say an array leaf must not exclude; a dark `null` leaf drops it;
a dark empty-map leaf keeps it with the declared default; an absent dark
path keeps it, preferring a non-null light value; a `null` light value
falls back to the default. -/
theorem getPropertiesForJob_dark_leaf_behaviour :
    GetPropertiesForJob [⟨"a.b.c", .int 42⟩]
        ⟨[("properties", .map [])],
          [("properties", .map [("a", .map [("b", .map [("c", .seq [.int 1])])])])]⟩ =
      .ok [] ∧
    GetPropertiesForJob [⟨"a.b.c", .int 42⟩]
        ⟨[("properties", .map [])],
          [("properties", .map [("a", .map [("b", .map [("c", .null)])])])]⟩ =
      .ok [] ∧
    GetPropertiesForJob [⟨"a.b.c", .int 42⟩]
        ⟨[("properties", .map [])],
          [("properties", .map [("a", .map [("b", .map [("c", .map [])])])])]⟩ =
      .ok [("a", .map [("b", .map [("c", .int 42)])])] ∧
    GetPropertiesForJob [⟨"a.b.c", .int 42⟩]
        ⟨[("properties", .map [("a", .map [("b", .map [("c", .str "light")])])])],
          [("properties", .map [])]⟩ =
      .ok [("a", .map [("b", .map [("c", .str "light")])])] ∧
    GetPropertiesForJob [⟨"a.b.c", .int 42⟩]
        ⟨[("properties", .map [("a", .map [("b", .map [("c", .null)])])])],
          [("properties", .map [])]⟩ =
      .ok [("a", .map [("b", .map [("c", .int 42)])])] :=
  ⟨rfl, rfl, rfl, rfl, rfl⟩

/-! ## Run aggregation (`instance_groups.go`, `CalculateRoleRun`)

`CalculateRoleRun` folds selected `properties.bosh_containerization.run`
fields of an instance group's job references onto the group's `Run` block,
validating as it goes.  The `JobReferences` helper methods it calls
(`WithRunProperty`, `atLeastOnce`, `atMostOnce`, `equalOrMissing`,
`uniqueStringProperty`, `first…`) are outside the provided sources and are
modelled from the spec.  `setScaling`, `mergeCapabilities`, `mergeVolumes`
and `setMaxFields` touch only `Run` fields no claim mentions and are
omitted from the model. -/

/-- The `Run` block of a job reference, as far as `CalculateRoleRun` reads
it.  An absent health check / affinity is `none`; `activePassiveProbe`,
`serviceAccount` and `flightStage` are Go strings, `""` when undeclared. -/
structure RunProps where
  healthCheck : Option String
  activePassiveProbe : String
  serviceAccount : String
  flightStage : String
  affinity : Option String

/-- A job reference of an instance group; `run = none` models an absent
`properties.bosh_containerization.run` block. -/
structure JobRefRun where
  name : String
  run : Option RunProps

/-- The aggregated `Run` block of the instance group (the fields the claims
mention; zero values as in Go). -/
structure RoleRun where
  flightStage : String
  healthCheck : Option String
  activePassiveProbe : String
  serviceAccount : String
  affinity : Option String

/-- `runPropertyPresent`: the job declares a `run` block. -/
def runPropertyPresent (j : JobRefRun) : Bool := j.run.isSome

/-- Modelled from the spec: `WithRunProperty` keeps the job references that
declare a `run` block. -/
def withRunProperty (l : List JobRefRun) : List JobRefRun :=
  l.filter runPropertyPresent

/-- `healthCheckPresent`: the job declares a health check. -/
def healthCheckPresent (j : JobRefRun) : Bool :=
  match j.run with
  | some r => r.healthCheck.isSome
  | none => false

/-- `affinityPresent`: the job declares an affinity. -/
def affinityPresent (j : JobRefRun) : Bool :=
  match j.run with
  | some r => r.affinity.isSome
  | none => false

/-- Modelled from the spec: `atMostOnce` holds when at most one job
satisfies the predicate. -/
def atMostOnce (p : JobRefRun → Bool) (l : List JobRefRun) : Bool :=
  decide (l.countP p ≤ 1)

/-- Modelled from the spec: the first declared health check. -/
def firstHealthCheck (l : List JobRefRun) : Option String :=
  (l.filterMap (fun j => j.run.bind RunProps.healthCheck)).head?

/-- Modelled from the spec: the first declared affinity. -/
def firstAffinity (l : List JobRefRun) : Option String :=
  (l.filterMap (fun j => j.run.bind RunProps.affinity)).head?

/-- Modelled from the spec: the first declared (non-empty) flight stage. -/
def firstFlightStage (l : List JobRefRun) : String :=
  ((l.filterMap (fun j => j.run.map RunProps.flightStage)).filter
    (fun v => ¬ v = "")).headD ""

/-- First-occurrence deduplication of a value list. -/
def distinctVals (vs : List String) : List String :=
  vs.foldl (fun acc v => if v ∈ acc then acc else acc ++ [v]) []

/-- The distinct non-empty values a string-valued run field takes across
the given job references. -/
def declaredValues (f : RunProps → String) (l : List JobRefRun) : List String :=
  distinctVals ((l.filterMap (fun j => j.run.map f)).filter (fun v => ¬ v = ""))

/-- Modelled from the spec: `uniqueStringProperty` succeeds with the single
declared value (or `""` when none is declared) when the field takes at most
one distinct non-empty value across the jobs, and fails otherwise. -/
def uniqueStringProperty (f : RunProps → String) (l : List JobRefRun) :
    Except String String :=
  match declaredValues f l with
  | [] => .ok ""
  | [v] => .ok v
  | _ :: _ :: _ => .error "more than one distinct value"

/-- Modelled from the spec: flight stages must be equal across the jobs
that declare one (declaring on one job is enough). -/
def equalOrMissingFlightStage (l : List JobRefRun) : Bool :=
  decide ((declaredValues RunProps.flightStage l).length ≤ 1)

/-- `CalculateRoleRun` for one instance group: require a `run` block on at
least one job; then, over the jobs with a `run` block, fold flight stage
(equal-or-missing), health check (at most one), active-passive probe and
service account (unique non-empty value) and affinity (at most one) onto
the `Run` block, collecting one `Invalid` diagnostic per violated rule (a
violated rule leaves the corresponding `Run` field at its zero value). -/
def CalculateRoleRun (igName : String) (jobRefs : List JobRefRun) :
    List String × RoleRun :=
  let run0 : RoleRun := ⟨"", none, "", "", none⟩
  if ¬ jobRefs.any runPropertyPresent then
    ([s!"instance_groups[{igName}]: run required for at least one Job"], run0)
  else
    let jr := withRunProperty jobRefs
    let errsFS :=
      if equalOrMissingFlightStage jr then []
      else [s!"instance_groups[{igName}]: Run.FlightStage must have the same value on all jobs"]
    let fs := if equalOrMissingFlightStage jr then firstFlightStage jr else ""
    let errsHC :=
      if atMostOnce healthCheckPresent jr then []
      else [s!"instance_groups[{igName}]: cannot specify Run.HealthCheck on more than one job"]
    let hc := if atMostOnce healthCheckPresent jr then firstHealthCheck jr else none
    let appRes := uniqueStringProperty RunProps.activePassiveProbe jr
    let errsAPP :=
      match appRes with
      | .ok _ => []
      | .error _ => [s!"instance_groups[{igName}]: cannot specify Run.ActivePassiveProbe on more than one job"]
    let app :=
      match appRes with
      | .ok v => v
      | .error _ => ""
    let saRes := uniqueStringProperty RunProps.serviceAccount jr
    let errsSA :=
      match saRes with
      | .ok _ => []
      | .error _ => [s!"instance_groups[{igName}]: cannot specify Run.ServiceAccount on more than one job"]
    let sa :=
      match saRes with
      | .ok v => v
      | .error _ => ""
    let errsAFF :=
      if atMostOnce affinityPresent jr then []
      else [s!"instance_groups[{igName}]: cannot specify Run.Affinity on more than one job"]
    let aff := if atMostOnce affinityPresent jr then firstAffinity jr else none
    (errsFS ++ errsHC ++ errsAPP ++ errsSA ++ errsAFF,
      ⟨fs, hc, app, sa, aff⟩)

theorem uniqueStringProperty_error (f : RunProps → String) (l : List JobRefRun)
    (h : 1 < (declaredValues f l).length) :
    ∃ e, uniqueStringProperty f l = .error e := by
  unfold uniqueStringProperty
  match hd : declaredValues f l with
  | [] => rw [hd] at h; simp at h
  | [v] => rw [hd] at h; simp at h
  | a :: b :: rest => exact ⟨_, rfl⟩

theorem uniqueStringProperty_ok (f : RunProps → String) (l : List JobRefRun)
    (h : (declaredValues f l).length ≤ 1) :
    uniqueStringProperty f l = .ok ((declaredValues f l).headD "") := by
  unfold uniqueStringProperty
  match hd : declaredValues f l with
  | [] => simp
  | [v] => simp
  | a :: b :: rest => rw [hd] at h; simp at h

/-- C9: for each instance group, `CalculateRoleRun` reports a validation
error whenever more than one job (with a `run` block) declares a health
check, or the jobs declare two distinct non-empty values for
`ActivePassiveProbe`, or two distinct non-empty values for
`ServiceAccount`; and whenever one of these rules is satisfied the unique
declared value (zero value when none is declared) is folded onto the
instance group's `Run` block. -/
theorem calculateRoleRun_uniqueness (igName : String) (jobRefs : List JobRefRun) :
    (1 < (withRunProperty jobRefs).countP healthCheckPresent →
      (CalculateRoleRun igName jobRefs).1 ≠ []) ∧
    (1 < (declaredValues RunProps.activePassiveProbe (withRunProperty jobRefs)).length →
      (CalculateRoleRun igName jobRefs).1 ≠ []) ∧
    (1 < (declaredValues RunProps.serviceAccount (withRunProperty jobRefs)).length →
      (CalculateRoleRun igName jobRefs).1 ≠ []) ∧
    ((withRunProperty jobRefs).countP healthCheckPresent ≤ 1 →
      (CalculateRoleRun igName jobRefs).2.healthCheck =
        firstHealthCheck (withRunProperty jobRefs)) ∧
    ((declaredValues RunProps.activePassiveProbe (withRunProperty jobRefs)).length ≤ 1 →
      (CalculateRoleRun igName jobRefs).2.activePassiveProbe =
        (declaredValues RunProps.activePassiveProbe (withRunProperty jobRefs)).headD "") ∧
    ((declaredValues RunProps.serviceAccount (withRunProperty jobRefs)).length ≤ 1 →
      (CalculateRoleRun igName jobRefs).2.serviceAccount =
        (declaredValues RunProps.serviceAccount (withRunProperty jobRefs)).headD "") := by
  by_cases hAny : jobRefs.any runPropertyPresent
  · have hNN : ¬ ¬ jobRefs.any runPropertyPresent = true := by simp [hAny]
    refine ⟨?_, ?_, ?_, ?_, ?_, ?_⟩
    · intro h
      unfold CalculateRoleRun
      rw [if_neg hNN]
      have : ¬ atMostOnce healthCheckPresent (withRunProperty jobRefs) = true := by
        simp only [atMostOnce, decide_eq_true_eq]
        omega
      simp only [this, if_false, ne_eq, List.append_eq_nil, List.cons_ne_nil,
        false_and, and_false]
      simp
    · intro h
      unfold CalculateRoleRun
      rw [if_neg hNN]
      obtain ⟨e, he⟩ := uniqueStringProperty_error RunProps.activePassiveProbe _ h
      simp only [he]
      simp
    · intro h
      unfold CalculateRoleRun
      rw [if_neg hNN]
      obtain ⟨e, he⟩ := uniqueStringProperty_error RunProps.serviceAccount _ h
      simp only [he]
      simp
    · intro h
      unfold CalculateRoleRun
      rw [if_neg hNN]
      have : atMostOnce healthCheckPresent (withRunProperty jobRefs) = true := by
        simp only [atMostOnce, decide_eq_true_eq]
        omega
      simp [this]
    · intro h
      unfold CalculateRoleRun
      rw [if_neg hNN]
      simp only [uniqueStringProperty_ok RunProps.activePassiveProbe _ h]
    · intro h
      unfold CalculateRoleRun
      rw [if_neg hNN]
      simp only [uniqueStringProperty_ok RunProps.serviceAccount _ h]
  · have hjr : withRunProperty jobRefs = [] := by
      unfold withRunProperty
      rw [List.filter_eq_nil_iff]
      intro a ha
      intro hp
      exact hAny (List.any_eq_true.mpr ⟨a, ha, hp⟩)
    refine ⟨?_, ?_, ?_, ?_, ?_, ?_⟩
    · intro h
      exfalso
      rw [hjr] at h
      simp at h
    · intro h
      exfalso
      rw [hjr] at h
      simp [declaredValues, distinctVals] at h
    · intro h
      exfalso
      rw [hjr] at h
      simp [declaredValues, distinctVals] at h
    · intro _
      unfold CalculateRoleRun
      rw [if_pos (by simpa using hAny), hjr]
      simp [firstHealthCheck]
    · intro _
      unfold CalculateRoleRun
      rw [if_pos (by simpa using hAny), hjr]
      simp [declaredValues, distinctVals]
    · intro _
      unfold CalculateRoleRun
      rw [if_pos (by simpa using hAny), hjr]
      simp [declaredValues, distinctVals]

/-- Witness for `calculateRoleRun_uniqueness`: two jobs with distinct
service accounts produce a diagnostic, while their common active-passive
probe is folded onto the `Run` block. -/
theorem calculateRoleRun_uniqueness_witness :
    (CalculateRoleRun "web"
        [⟨"j1", some ⟨none, "probe", "sa1", "", none⟩⟩,
          ⟨"j2", some ⟨none, "probe", "sa2", "", none⟩⟩]).1 ≠ [] ∧
    (CalculateRoleRun "web"
        [⟨"j1", some ⟨none, "probe", "sa1", "", none⟩⟩,
          ⟨"j2", some ⟨none, "probe", "sa2", "", none⟩⟩]).2.activePassiveProbe =
      "probe" :=
  ⟨(calculateRoleRun_uniqueness "web"
      [⟨"j1", some ⟨none, "probe", "sa1", "", none⟩⟩,
        ⟨"j2", some ⟨none, "probe", "sa2", "", none⟩⟩]).2.2.1 (by decide),
    by
      have := (calculateRoleRun_uniqueness "web"
        [⟨"j1", some ⟨none, "probe", "sa1", "", none⟩⟩,
          ⟨"j2", some ⟨none, "probe", "sa2", "", none⟩⟩]).2.2.2.2.1 (by decide)
      rw [this]
      decide⟩

/-! ## Service emission (`kube` package, `newService` / `newClusteringService`)

The helm node tree is modelled just deeply enough to capture the port
mappings and the service skeleton; chart-only adornments (sort order, the
`_incompatible` guard, label blocks) carry no information any claim
depends on.  Template expressions are kept as literal strings. -/

/-- `model.JobExposedPort` as read by `createPorts`. -/
structure JobExposedPort where
  name : String
  protocol : String
  externalPort : Int
  internalPort : Int
  count : Nat
  max : Nat
  public : Bool
  countIsConfigurable : Bool
  portIsConfigurable : Bool

/-- Export settings (the only field the port/service builders read). -/
structure ExportSettings where
  createHelmChart : Bool

/-- The `newServiceType` enumeration. -/
inductive NewServiceType where
  | headless
  | privateSvc
  | publicSvc
deriving DecidableEq

/-- A port or targetPort value: a number, a port name, or a template. -/
inductive PortVal where
  | num (n : Int)
  | nameRef (s : String)
  | tmpl (s : String)
deriving DecidableEq

/-- One entry of a service's `ports:` list, with its optional helm block. -/
structure PortNode where
  name : String
  port : PortVal
  targetPort : PortVal
  protocol : String
  block : Option String
deriving DecidableEq

/-- Modelled from the spec and the `makeVarName` test table: dashes become
underscores (the helper itself is outside the provided sources). -/
def makeVarName (s : String) : String :=
  String.mk (s.toList.map (fun c => if c = '-' then '_' else c))

/-- Modelled from the spec: `util.ConvertNameToKey` kebab-cases a name
(the helper itself is outside the provided sources). -/
def convertNameToKey (s : String) : String :=
  String.mk (s.toList.map (fun c => if c = '_' then '-' else c.toLower))

/-- `createPorts`: one templated `range` node when the chart is templated
and the port count is configurable, otherwise one node per counted port. -/
def createPorts (settings : ExportSettings) (serviceType : NewServiceType)
    (roleName : String) (port : JobExposedPort) : List PortNode :=
  if settings.createHelmChart ∧ port.countIsConfigurable then
    let sizing := s!".Values.sizing.{makeVarName roleName}.ports.{makeVarName port.name}"
    let block := s!"range $port := until (int {sizing}.count)"
    let portName :=
      if port.max > 1 then s!"{port.name}-\x7b\x7b $port \x7d\x7d" else port.name
    let portNumber :=
      if port.portIsConfigurable then
        PortVal.tmpl s!"\x7b\x7b add (int ${sizing}.port) $port \x7d\x7d"
      else
        PortVal.tmpl s!"\x7b\x7b add {port.externalPort} $port \x7d\x7d"
    let target :=
      if serviceType = NewServiceType.headless then PortVal.num 0
      else PortVal.nameRef portName
    [⟨portName, portNumber, target, port.protocol, some block⟩]
  else
    (List.range port.count).map (fun portIndex =>
      let portName :=
        if port.max > 1 then s!"{port.name}-{portIndex}" else port.name
      let portNumber :=
        if settings.createHelmChart ∧ port.portIsConfigurable then
          PortVal.tmpl
            s!"\x7b\x7b add (int $.Values.sizing.{makeVarName roleName}.ports.{makeVarName port.name}.port) {portIndex} \x7d\x7d"
        else
          PortVal.num (port.externalPort + (portIndex : Int))
      let target :=
        if serviceType = NewServiceType.headless then PortVal.num 0
        else PortVal.num (port.internalPort + (portIndex : Int))
      ⟨portName, portNumber, target, port.protocol, none⟩)

/-- A job reference as read by the service builders. -/
structure JobRefKube where
  name : String
  serviceName : String
  ports : List JobExposedPort

/-- An instance group as read by the service builders. -/
structure InstanceGroupKube where
  name : String
  tags : List String
  jobs : List JobRefKube

/-- `role.HasTag`. -/
def hasTag (g : InstanceGroupKube) (t : String) : Bool := t ∈ g.tags

/-- The emitted `Service` document (claim-relevant fields). -/
structure ServiceDoc where
  name : String
  clusterIP : Option String
  selectorRoleName : String
  selectorActivePassive : Bool
  externalIPs : Option String
  ports : List PortNode

/-- The port list collected by `newClusteringService`: headless ports of
every exposed port of every job of the group. -/
def clusteringServicePorts (role : InstanceGroupKube)
    (settings : ExportSettings) : List PortNode :=
  ((role.jobs.map (fun job =>
    (job.ports.map
      (createPorts settings NewServiceType.headless role.name)).flatten)).flatten)

/-- `newClusteringService`: nothing is emitted when the collected port list
is empty (Kubernetes refuses services with no ports); otherwise a headless
`<role>-set` service. -/
def newClusteringService (role : InstanceGroupKube)
    (settings : ExportSettings) : Option ServiceDoc :=
  let ports := clusteringServicePorts role settings
  if ports.isEmpty then none
  else
    some ⟨role.name ++ "-set", some "None", role.name,
      hasTag role "active-passive", none, ports⟩

/-- The port list collected by `newService`: non-public ports are skipped
when building the public service. -/
def servicePorts (settings : ExportSettings) (serviceType : NewServiceType)
    (role : InstanceGroupKube) (job : JobRefKube) : List PortNode :=
  (job.ports.map (fun port =>
    if serviceType = NewServiceType.publicSvc ∧ ¬ port.public then []
    else createPorts settings serviceType role.name port)).flatten

/-- `newService`: nothing is emitted when the collected port list is empty;
otherwise a service named from the job's service name (default
`kebab(role)-kebab(job)`) with the type's suffix, headless services get
`clusterIP: None`, and public services get external IPs (a template when
emitting a chart, the literal development IP otherwise). -/
def newService (role : InstanceGroupKube) (job : JobRefKube)
    (serviceType : NewServiceType) (settings : ExportSettings) :
    Option ServiceDoc :=
  let ports := servicePorts settings serviceType role job
  if ports.isEmpty then none
  else
    let base :=
      if job.serviceName.isEmpty then convertNameToKey (role.name ++ "-" ++ job.name)
      else job.serviceName
    let serviceName :=
      match serviceType with
      | NewServiceType.headless => base ++ "-set"
      | NewServiceType.privateSvc => base
      | NewServiceType.publicSvc => base ++ "-public"
    some ⟨serviceName,
      (if serviceType = NewServiceType.headless then some "None" else none),
      role.name, hasTag role "active-passive",
      (if serviceType = NewServiceType.publicSvc then
        (if settings.createHelmChart then
          some "\x7b\x7b .Values.kube.external_ips | toJson \x7d\x7d"
        else some "192.168.77.77") else none),
      ports⟩

/-- C10: the service emitter never produces a `Service` document with an
empty port list — `newService` and `newClusteringService` return `nil`
(emitting nothing) exactly when the collected port list is empty, and any
emitted service carries that non-empty port list. -/
theorem services_never_emitted_with_empty_ports (role : InstanceGroupKube)
    (job : JobRefKube) (serviceType : NewServiceType)
    (settings : ExportSettings) :
    (servicePorts settings serviceType role job = [] →
      newService role job serviceType settings = none) ∧
    (∀ svc, newService role job serviceType settings = some svc →
      svc.ports = servicePorts settings serviceType role job ∧ svc.ports ≠ []) ∧
    (clusteringServicePorts role settings = [] →
      newClusteringService role settings = none) ∧
    (∀ svc, newClusteringService role settings = some svc →
      svc.ports = clusteringServicePorts role settings ∧ svc.ports ≠ []) := by
  refine ⟨?_, ?_, ?_, ?_⟩
  · intro h
    simp [newService, h]
  · intro svc hsvc
    by_cases hP : (servicePorts settings serviceType role job).isEmpty
    · simp [newService, hP] at hsvc
    · simp only [newService, hP, Bool.false_eq_true, if_false,
        Option.some.injEq] at hsvc
      have h1 : svc.ports = servicePorts settings serviceType role job := by
        rw [← hsvc]
      refine ⟨h1, ?_⟩
      rw [h1]
      intro hnil
      rw [hnil] at hP
      simp at hP
  · intro h
    simp [newClusteringService, h]
  · intro svc hsvc
    by_cases hP : (clusteringServicePorts role settings).isEmpty
    · simp [newClusteringService, hP] at hsvc
    · simp only [newClusteringService, hP, Bool.false_eq_true, if_false,
        Option.some.injEq] at hsvc
      have h1 : svc.ports = clusteringServicePorts role settings := by
        rw [← hsvc]
      refine ⟨h1, ?_⟩
      rw [h1]
      intro hnil
      rw [hnil] at hP
      simp at hP

/-- Witness for `services_never_emitted_with_empty_ports`: a job whose only
port is non-public yields no public service; a group whose jobs expose no
ports yields no clustering service. -/
theorem services_never_emitted_with_empty_ports_witness :
    newService ⟨"web", [], [⟨"job1", "", [⟨"http", "TCP", 80, 80, 1, 1,
        false, false, false⟩]⟩]⟩
      ⟨"job1", "", [⟨"http", "TCP", 80, 80, 1, 1, false, false, false⟩]⟩
      NewServiceType.publicSvc ⟨false⟩ = none ∧
    newClusteringService ⟨"web", [], [⟨"job1", "", []⟩]⟩ ⟨false⟩ = none :=
  ⟨(services_never_emitted_with_empty_ports
      ⟨"web", [], [⟨"job1", "", [⟨"http", "TCP", 80, 80, 1, 1, false, false,
        false⟩]⟩]⟩
      ⟨"job1", "", [⟨"http", "TCP", 80, 80, 1, 1, false, false, false⟩]⟩
      NewServiceType.publicSvc ⟨false⟩).1 (by decide),
    (services_never_emitted_with_empty_ports
      ⟨"web", [], [⟨"job1", "", []⟩]⟩ ⟨"job1", "", []⟩
      NewServiceType.publicSvc ⟨false⟩).2.2.1 (by decide)⟩

/-! ## Link resolution (`model/resolver/resolver.go`, `ResolveLinks`)

`ResolveLinks` runs two passes: pass A builds the `providersByName` /
`providersByType` indices from every job's exported and available
providers; pass B resolves each job's consumers, mutating the job's
`ResolvedConsumes` map in place and collecting diagnostics.  Go maps
become association lists (Go map iteration order is not modelled; the
embedding fixes the given list order).  Diagnostics are modelled by their
field path plus a short message.  `recordJobConsumers` is modelled for its
diagnostics; the `ResolvedConsumedBy` back-edge writes it performs carry
no information any claim depends on and are omitted. -/

/-- `model.JobProvidesInfo`: a provider entry of the link indices
(`JobLinkInfo` flattened; the Go field `Type` is `linkType` here). -/
structure ProvidesInfo where
  name : String
  linkType : String
  roleName : String
  jobName : String
  serviceName : String
  properties : List String
deriving DecidableEq, Repr

/-- `model.JobConsumesInfo` (`JobLinkInfo` flattened; Go `Alias`, read from
yaml key `from`, is `aliasFrom` here). -/
structure ConsumesInfo where
  name : String
  linkType : String
  roleName : String
  jobName : String
  serviceName : String
  aliasFrom : String
  ignore : Bool
  optional : Bool
deriving DecidableEq, Repr

/-- The zero `JobConsumesInfo` (Go zero value). -/
def emptyConsumes : ConsumesInfo := ⟨"", "", "", "", "", "", false, false⟩

/-- An entry of `job.Job.AvailableProviders`. -/
structure AvailableProvider where
  name : String
  linkType : String
  properties : List String
deriving DecidableEq, Repr

/-- A job reference as `ResolveLinks` reads it: its name, explicit service
name (may be empty), the underlying job's available providers and desired
consumers, the role manifest's exported provides (name → alias, `""` when
unset) and the role manifest's consumer overrides (`ResolvedConsumes`
before resolution). -/
structure JobRefL where
  name : String
  serviceName : String
  availableProviders : List (String × AvailableProvider)
  desiredConsumers : List ConsumesInfo
  exportedProvides : List (String × String)
  resolvedConsumes : List (String × ConsumesInfo)
deriving DecidableEq, Repr

/-- An instance group as `ResolveLinks` reads it. -/
structure InstanceGroupL where
  name : String
  jobs : List JobRefL
deriving DecidableEq, Repr

/-- The role manifest as `ResolveLinks` reads it. -/
structure RoleManifestL where
  instanceGroups : List InstanceGroupL
deriving DecidableEq, Repr

/-- The two indices built by pass A, plus its diagnostics. -/
structure LinkIndices where
  byName : List (String × ProvidesInfo)
  byType : List (String × List ProvidesInfo)
  errs : List String

/-- Append a provider to a type's bucket; Go
`providersByType[t] = append(providersByType[t], info)`. -/
def atAppend (m : List (String × List ProvidesInfo)) (k : String)
    (v : ProvidesInfo) : List (String × List ProvidesInfo) :=
  match alookup m k with
  | some l => aset m k (l ++ [v])
  | none => aset m k [v]

/-- The service name of a provider: the explicit
`bosh_containerization.service_name` or `kebab(group)-kebab(job)`. -/
def providerServiceName (igName jobName svc : String) : String :=
  if svc = "" then convertNameToKey igName ++ "-" ++ convertNameToKey jobName
  else svc

/-- Pass A, available-provider loop body: providers with a non-empty type
are grouped by type. -/
def availStep (igName jobName svc : String) (st : LinkIndices)
    (entry : String × AvailableProvider) : LinkIndices :=
  let ap := entry.2
  if ¬ ap.linkType = "" then
    { st with byType := (atAppend st.byType ap.linkType
        ⟨ap.name, ap.linkType, igName, jobName, svc, ap.properties⟩) }
  else st

/-- Pass A, exported-provides loop body: an exported name must be an
available provider; the index key is the role-manifest alias when set,
else the declared name. -/
def exportStep (igName jobName svc : String)
    (avail : List (String × AvailableProvider)) (st : LinkIndices)
    (entry : String × String) : LinkIndices :=
  match alookup avail entry.1 with
  | none =>
    { st with errs := st.errs ++
        [s!"instance_groups[{igName}].jobs[{jobName}].provides[{entry.1}]: provider not found"] }
  | some info =>
    let key := if entry.2 = "" then entry.1 else entry.2
    { st with byName := (aset st.byName key
        ⟨info.name, info.linkType, igName, jobName, svc, info.properties⟩) }

/-- Pass A over one job. -/
def passAJob (igName : String) (st : LinkIndices) (j : JobRefL) : LinkIndices :=
  let svc := providerServiceName igName j.name j.serviceName
  let st1 := j.availableProviders.foldl (availStep igName j.name svc) st
  j.exportedProvides.foldl (exportStep igName j.name svc j.availableProviders) st1

/-- Pass A over the whole manifest. -/
def passA (m : RoleManifestL) : LinkIndices :=
  m.instanceGroups.foldl (fun st g => g.jobs.foldl (passAJob g.name) st)
    ⟨[], [], []⟩

/-- The binding recorded for a resolved consumer:
`JobConsumesInfo{JobLinkInfo: provider.JobLinkInfo}` (alias, ignore and
optional are zeroed). -/
def bindingFrom (p : ProvidesInfo) : ConsumesInfo :=
  ⟨p.name, p.linkType, p.roleName, p.jobName, p.serviceName, "", false, false⟩

/-- Remove the first expected consumer with the given name (the
`expectedConsumers` removal loop with its `break`). -/
def removeFirstConsumer : List ConsumesInfo → String → List ConsumesInfo
  | [], _ => []
  | c :: rest, cname =>
    if c.name = cname then rest else c :: removeFirstConsumer rest cname

/-- The field path of a consumer diagnostic. -/
def mkConsumesField (igName jobName cname : String) : String :=
  s!"instance_group[{igName}].job[{jobName}].consumes[{cname}]"

/-- Pass B, override loop body (state: `ResolvedConsumes`, remaining
expected consumers, diagnostics).  An override with an empty effective
name is `Invalid`; an unknown alias is `NotFound` (the override then stays
in the expected list); otherwise the override binds (or, when flagged
ignore, deletes its entry) and the first matching expected consumer is
removed. -/
def overrideStep (byName : List (String × ProvidesInfo))
    (igName jobName : String)
    (st : List (String × ConsumesInfo) × List ConsumesInfo × List String)
    (ov : String × ConsumesInfo) :
    List (String × ConsumesInfo) × List ConsumesInfo × List String :=
  let cname := ov.1
  let cinfo := ov.2
  let calias := if cinfo.aliasFrom = "" then cname else cinfo.aliasFrom
  if calias = "" then
    (st.1, st.2.1,
      st.2.2 ++ [s!"instance_group[{igName}].job[{jobName}]: consumer has no name"])
  else
    match alookup byName calias with
    | none =>
      (st.1, st.2.1,
        st.2.2 ++ [mkConsumesField igName jobName cname ++ ": consumer not found"])
    | some p =>
      let rc2 := if cinfo.ignore then aerase st.1 cname
        else aset st.1 cname (bindingFrom p)
      (rc2, removeFirstConsumer st.2.1 cname, st.2.2)

/-- The providers of a type; Go `providersByType[t]` (`nil` when absent). -/
def typeProviders (byType : List (String × List ProvidesInfo)) (t : String) :
    List ProvidesInfo :=
  (alookup byType t).getD []

/-- Pass B, expected-consumer loop body: a named consumer is looked up in
`providersByName`; failing that, a unique provider of the consumer's type
binds; the binding is stored under the consumer's name (the provider's
name for nameless consumers), updating the link fields of any existing
entry; otherwise a non-optional consumer yields a `Required` diagnostic. -/
def consumerStep (byName : List (String × ProvidesInfo))
    (byType : List (String × List ProvidesInfo)) (igName jobName : String)
    (st : List (String × ConsumesInfo) × List String) (c : ConsumesInfo) :
    List (String × ConsumesInfo) × List String :=
  let foundByName : Option ProvidesInfo :=
    if ¬ c.name = "" then alookup byName c.name else none
  let found : Option ProvidesInfo :=
    match foundByName with
    | some p => some p
    | none =>
      match typeProviders byType c.linkType with
      | [p] => some p
      | _ => none
  match found with
  | some p =>
    let keyName := if c.name = "" then p.name else c.name
    let info := (alookup st.1 keyName).getD emptyConsumes
    (aset st.1 keyName
      { info with
          name := p.name
          linkType := p.linkType
          roleName := p.roleName
          jobName := p.jobName
          serviceName := p.serviceName }, st.2)
  | none =>
    if ¬ c.optional then
      (st.1, st.2 ++
        [mkConsumesField igName jobName c.name ++ ": failed to resolve provider"])
    else st

/-- Pass B for one job: process the role-manifest overrides, then the
remaining expected consumers; returns the job's final `ResolvedConsumes`
and its diagnostics. -/
def resolveJobConsumers (byName : List (String × ProvidesInfo))
    (byType : List (String × List ProvidesInfo)) (igName : String)
    (j : JobRefL) : List (String × ConsumesInfo) × List String :=
  let st1 := j.resolvedConsumes.foldl (overrideStep byName igName j.name)
    (j.resolvedConsumes, j.desiredConsumers, [])
  let st2 := st1.2.1.foldl (consumerStep byName byType igName j.name)
    (st1.1, st1.2.2)
  st2

/-- The manifest after `ResolveLinks`: every job's `ResolvedConsumes`
replaced by its resolved map. -/
def resolvedManifest (m : RoleManifestL) : RoleManifestL :=
  ⟨m.instanceGroups.map (fun g =>
    ⟨g.name, g.jobs.map (fun j =>
      { j with resolvedConsumes := ((resolveJobConsumers (passA m).byName
          (passA m).byType g.name j).1) })⟩)⟩

/-- `m.LookupInstanceGroup`. -/
def lookupInstanceGroup (m : RoleManifestL) (name : String) :
    Option InstanceGroupL :=
  m.instanceGroups.find? (fun g => g.name = name)

/-- `instanceGroup.LookupJob`. -/
def lookupJob (g : InstanceGroupL) (name : String) : Option JobRefL :=
  g.jobs.find? (fun j => j.name = name)

/-- The diagnostics of `recordJobConsumers`: a resolved link whose provider
group or job can no longer be found is an internal error. -/
def recordJobConsumersErrors (m : RoleManifestL) : List String :=
  (m.instanceGroups.map (fun g =>
    (g.jobs.map (fun j =>
      (j.resolvedConsumes.map (fun e =>
        match lookupInstanceGroup m e.2.roleName with
        | none => [mkConsumesField g.name j.name e.1 ++
            ": internal error, resolved instance group not found"]
        | some pg =>
          match lookupJob pg e.2.jobName with
          | none => [mkConsumesField g.name j.name e.1 ++
              ": internal error, resolved job not found"]
          | some _ => [])).flatten)).flatten)).flatten

/-- The full diagnostic list of `ResolveLinks`: pass-A errors, pass-B
errors in iteration order, then the `recordJobConsumers` errors. -/
def resolveLinksErrors (m : RoleManifestL) : List String :=
  (passA m).errs ++
    (m.instanceGroups.map (fun g =>
      (g.jobs.map (fun j =>
        (resolveJobConsumers (passA m).byName (passA m).byType g.name j).2)).flatten)).flatten ++
    recordJobConsumersErrors (resolvedManifest m)

/-- C6: in `ResolveLinks`, a consumer without an explicit name (for which
the by-name lookup is skipped) is bound to the sole provider of its
declared type when exactly one such provider exists across the deployment;
with two or more providers of that type no binding happens, and a
non-optional consumer yields a `Required` diagnostic (an optional one is
skipped silently). -/
theorem resolveLinks_unnamed_consumer_by_type
    (byName : List (String × ProvidesInfo))
    (byType : List (String × List ProvidesInfo)) (igName jobName : String)
    (rc : List (String × ConsumesInfo)) (errs : List String)
    (c : ConsumesInfo) (hname : c.name = "") :
    (∀ p, typeProviders byType c.linkType = [p] →
      consumerStep byName byType igName jobName (rc, errs) c =
        (aset rc p.name
          { (alookup rc p.name).getD emptyConsumes with
              name := p.name
              linkType := p.linkType
              roleName := p.roleName
              jobName := p.jobName
              serviceName := p.serviceName }, errs)) ∧
    (∀ p q rest, typeProviders byType c.linkType = p :: q :: rest →
      (c.optional = false →
        consumerStep byName byType igName jobName (rc, errs) c =
          (rc, errs ++
            [mkConsumesField igName jobName c.name ++ ": failed to resolve provider"])) ∧
      (c.optional = true →
        consumerStep byName byType igName jobName (rc, errs) c = (rc, errs))) := by
  constructor
  · intro p hp
    unfold consumerStep
    rw [hname, hp]
    simp
  · intro p q rest hp
    constructor
    · intro hopt
      unfold consumerStep
      rw [hname, hp, hopt]
      simp
    · intro hopt
      unfold consumerStep
      rw [hname, hp, hopt]
      simp

/-- Witness for `resolveLinks_unnamed_consumer_by_type`, including the
spec's scenario 3 end to end: instance group `A` exposes provider `p1` of
type `T`; instance group `B` consumes `{name: "", type: T, optional:
false}` and is bound to A's `p1`. -/
theorem resolveLinks_unnamed_consumer_by_type_witness :
    consumerStep [] [("T", [⟨"p1", "T", "A", "jobA", "a-joba", []⟩])]
        "B" "jobB" ([], []) ⟨"", "T", "", "", "", "", false, false⟩ =
      ([("p1", ⟨"p1", "T", "A", "jobA", "a-joba", "", false, false⟩)], []) ∧
    consumerStep [] [("T", [⟨"p1", "T", "A", "jobA", "a-joba", []⟩,
        ⟨"p2", "T", "C", "jobC", "c-jobc", []⟩])]
        "B" "jobB" ([], []) ⟨"", "T", "", "", "", "", false, false⟩ =
      ([], ["instance_group[B].job[jobB].consumes[]: failed to resolve provider"]) ∧
    (resolveJobConsumers (passA ⟨[⟨"A", [⟨"jobA", "",
          [("p1", ⟨"p1", "T", []⟩)], [], [], []⟩]⟩,
        ⟨"B", [⟨"jobB", "", [], [⟨"", "T", "", "", "", "", false, false⟩],
          [], []⟩]⟩]⟩).byName
      (passA ⟨[⟨"A", [⟨"jobA", "", [("p1", ⟨"p1", "T", []⟩)], [], [], []⟩]⟩,
        ⟨"B", [⟨"jobB", "", [], [⟨"", "T", "", "", "", "", false, false⟩],
          [], []⟩]⟩]⟩).byType
      "B" ⟨"jobB", "", [], [⟨"", "T", "", "", "", "", false, false⟩], [], []⟩).1 =
      [("p1", ⟨"p1", "T", "A", "jobA", "a-joba", "", false, false⟩)] := by
  refine ⟨?_, ?_, by decide⟩
  · rw [(resolveLinks_unnamed_consumer_by_type [] _ "B" "jobB" [] []
      ⟨"", "T", "", "", "", "", false, false⟩ rfl).1
      ⟨"p1", "T", "A", "jobA", "a-joba", []⟩ (by decide)]
    decide
  · rw [((resolveLinks_unnamed_consumer_by_type [] _ "B" "jobB" [] []
      ⟨"", "T", "", "", "", "", false, false⟩ rfl).2
      ⟨"p1", "T", "A", "jobA", "a-joba", []⟩
      ⟨"p2", "T", "C", "jobC", "c-jobc", []⟩ [] (by decide)).1 rfl]
    decide

/-! ### Pass-B invariants for C7 -/

theorem mem_aset_cases (m : List (String × α)) (k : String) (v : α)
    (x : String × α) : x ∈ aset m k v → x ∈ m ∨ x = (k, v) := by
  induction m with
  | nil => intro hx; simp [aset] at hx; exact Or.inr hx
  | cons e rest ih =>
    intro hx
    by_cases he : e.1 = k
    · rw [aset, if_pos he] at hx
      rcases List.mem_cons.mp hx with rfl | hx
      · exact Or.inr rfl
      · exact Or.inl (List.mem_cons_of_mem e hx)
    · rw [aset, if_neg he] at hx
      rcases List.mem_cons.mp hx with rfl | hx
      · exact Or.inl (List.mem_cons_self x rest)
      · rcases ih hx with h | h
        · exact Or.inl (List.mem_cons_of_mem e h)
        · exact Or.inr h

theorem alookup_mem (m : List (String × α)) (k : String) (v : α) :
    alookup m k = some v → (k, v) ∈ m := by
  induction m with
  | nil => intro h; simp [alookup] at h
  | cons e rest ih =>
    intro h
    by_cases he : e.1 = k
    · rw [alookup, if_pos he] at h
      have : e = (k, v) := by
        cases e
        simp only [Option.some.injEq] at h
        simp_all
      rw [← this]
      exact List.mem_cons_self e rest
    · rw [alookup, if_neg he] at h
      exact List.mem_cons_of_mem e (ih h)

/-- Every provider recorded in `providersByName` names its instance group. -/
def wfByName (byName : List (String × ProvidesInfo)) : Prop :=
  ∀ e ∈ byName, ¬ e.2.roleName = ""

/-- Every provider recorded in `providersByType` names its instance group. -/
def wfByType (byType : List (String × List ProvidesInfo)) : Prop :=
  ∀ e ∈ byType, ∀ p ∈ e.2, ¬ p.roleName = ""

theorem wfByName_aset {m k v} (h : wfByName m)
    (hv : ¬ ProvidesInfo.roleName v = "") : wfByName (aset m k v) := by
  intro e he
  rcases mem_aset_cases m k v e he with h1 | h1
  · exact h e h1
  · rw [h1]; exact hv

theorem wfByType_atAppend {m k v} (h : wfByType m)
    (hv : ¬ ProvidesInfo.roleName v = "") : wfByType (atAppend m k v) := by
  intro e he p hp
  unfold atAppend at he
  cases halk : alookup m k with
  | none =>
    rw [halk] at he
    rcases mem_aset_cases m k [v] e he with h1 | h1
    · exact h e h1 p hp
    · rw [h1] at hp
      simp only [List.mem_singleton] at hp
      rw [hp]; exact hv
  | some l =>
    rw [halk] at he
    rcases mem_aset_cases m k (l ++ [v]) e he with h1 | h1
    · exact h e h1 p hp
    · rw [h1] at hp
      simp only [List.mem_append, List.mem_singleton] at hp
      rcases hp with hp | hp
      · exact h (k, l) (alookup_mem m k l halk) p hp
      · rw [hp]; exact hv

/-- Invariant of the pass-A fold state. -/
def wfIndices (st : LinkIndices) : Prop := wfByName st.byName ∧ wfByType st.byType

theorem foldl_invariant_mem {β σ : Type _} (f : σ → β → σ) (P : σ → Prop) :
    ∀ (l : List β), (∀ x ∈ l, ∀ st, P st → P (f st x)) →
      ∀ st, P st → P (l.foldl f st) := by
  intro l
  induction l with
  | nil => intro _ st h; exact h
  | cons x rest ih =>
    intro hstep st h
    rw [List.foldl_cons]
    exact ih (fun y hy => hstep y (List.mem_cons_of_mem x hy)) (f st x)
      (hstep x (List.mem_cons_self x rest) st h)

theorem availStep_wf {igName jobName svc} (hig : ¬ igName = "") (st entry)
    (h : wfIndices st) : wfIndices (availStep igName jobName svc st entry) := by
  unfold availStep
  by_cases ht : ¬ (AvailableProvider.linkType entry.2) = ""
  · rw [if_pos ht]
    exact ⟨h.1, wfByType_atAppend h.2 hig⟩
  · rw [if_neg ht]
    exact h

theorem exportStep_wf {igName jobName svc avail} (hig : ¬ igName = "")
    (st entry) (h : wfIndices st) :
    wfIndices (exportStep igName jobName svc avail st entry) := by
  unfold exportStep
  cases alookup avail entry.1 with
  | none => exact h
  | some info => exact ⟨wfByName_aset h.1 hig, h.2⟩

theorem passAJob_wf {igName} (hig : ¬ igName = "") (st j)
    (h : wfIndices st) : wfIndices (passAJob igName st j) := by
  unfold passAJob
  apply foldl_invariant_mem _ wfIndices
  · intro x _ st2 h2
    exact exportStep_wf hig st2 x h2
  · apply foldl_invariant_mem _ wfIndices
    · intro x _ st2 h2
      exact availStep_wf hig st2 x h2
    · exact h

theorem passA_wf (m : RoleManifestL)
    (hg : ∀ g ∈ m.instanceGroups, ¬ g.name = "") : wfIndices (passA m) := by
  unfold passA
  apply foldl_invariant_mem _ wfIndices
  · intro g hgmem st h
    apply foldl_invariant_mem _ wfIndices
    · intro j _ st2 h2
      exact passAJob_wf (hg g hgmem) st2 j h2
    · exact h
  · exact ⟨fun e he => absurd he (List.not_mem_nil e),
      fun e he => absurd he (List.not_mem_nil e)⟩

theorem typeProviders_wf {byType} (hT : wfByType byType) (t : String)
    (p : ProvidesInfo) (hp : p ∈ typeProviders byType t) :
    ¬ p.roleName = "" := by
  unfold typeProviders at hp
  cases h : alookup byType t with
  | none => rw [h] at hp; simp at hp
  | some l =>
    rw [h] at hp
    exact hT (t, l) (alookup_mem byType t l h) p hp

/-- Case analysis of one expected-consumer step: it either records a
binding (whose provider names its group, and which is stored under the
consumer's name when the consumer has one), or appends the `Required`
diagnostic for a non-optional consumer, or (optional, unresolved) leaves
the state alone. -/
theorem consumerStep_cases {byName byType} (igName jobName : String)
    (hN : wfByName byName) (hT : wfByType byType)
    (st : List (String × ConsumesInfo) × List String) (c : ConsumesInfo) :
    (∃ keyName newInfo, ¬ ConsumesInfo.roleName newInfo = "" ∧
      (¬ c.name = "" → keyName = c.name) ∧
      consumerStep byName byType igName jobName st c =
        (aset st.1 keyName newInfo, st.2)) ∨
    (c.optional = false ∧
      consumerStep byName byType igName jobName st c =
        (st.1, st.2 ++
          [mkConsumesField igName jobName c.name ++ ": failed to resolve provider"])) ∨
    (c.optional = true ∧
      consumerStep byName byType igName jobName st c = st) := by
  by_cases hcn : c.name = ""
  · match htp : typeProviders byType c.linkType with
    | [p] =>
      have hpmem : p ∈ typeProviders byType c.linkType := by
        rw [htp]
        exact List.mem_singleton.mpr rfl
      have hpw := typeProviders_wf hT c.linkType p hpmem
      refine Or.inl ⟨p.name,
        { (alookup st.1 p.name).getD emptyConsumes with
            name := ProvidesInfo.name p
            linkType := p.linkType
            roleName := p.roleName
            jobName := p.jobName
            serviceName := p.serviceName },
        (by exact hpw), fun h => absurd hcn h, ?_⟩
      unfold consumerStep
      rw [hcn, htp]
      simp
    | [] =>
      cases hopt : c.optional with
      | false =>
        refine Or.inr (Or.inl ⟨rfl, ?_⟩)
        unfold consumerStep
        rw [hcn, htp, hopt]
        simp
      | true =>
        refine Or.inr (Or.inr ⟨rfl, ?_⟩)
        unfold consumerStep
        rw [hcn, htp, hopt]
        simp
    | p :: q :: rest =>
      cases hopt : c.optional with
      | false =>
        refine Or.inr (Or.inl ⟨rfl, ?_⟩)
        unfold consumerStep
        rw [hcn, htp, hopt]
        simp
      | true =>
        refine Or.inr (Or.inr ⟨rfl, ?_⟩)
        unfold consumerStep
        rw [hcn, htp, hopt]
        simp
  · cases hfb : alookup byName c.name with
    | some p =>
      have hpw := hN (c.name, p) (alookup_mem byName c.name p hfb)
      refine Or.inl ⟨c.name,
        { (alookup st.1 c.name).getD emptyConsumes with
            name := ProvidesInfo.name p
            linkType := p.linkType
            roleName := p.roleName
            jobName := p.jobName
            serviceName := p.serviceName },
        (by exact hpw), fun _ => rfl, ?_⟩
      unfold consumerStep
      simp [hcn, hfb]
    | none =>
      match htp : typeProviders byType c.linkType with
      | [p] =>
        have hpmem : p ∈ typeProviders byType c.linkType := by
          rw [htp]
          exact List.mem_singleton.mpr rfl
        have hpw := typeProviders_wf hT c.linkType p hpmem
        refine Or.inl ⟨c.name,
          { (alookup st.1 c.name).getD emptyConsumes with
              name := ProvidesInfo.name p
              linkType := p.linkType
              roleName := p.roleName
              jobName := p.jobName
              serviceName := p.serviceName },
          (by exact hpw), fun _ => rfl, ?_⟩
        unfold consumerStep
        simp [hcn, hfb, htp]
      | [] =>
        cases hopt : c.optional with
        | false =>
          refine Or.inr (Or.inl ⟨rfl, ?_⟩)
          unfold consumerStep
          simp [hcn, hfb, htp, hopt]
        | true =>
          refine Or.inr (Or.inr ⟨rfl, ?_⟩)
          unfold consumerStep
          simp [hcn, hfb, htp, hopt]
      | p :: q :: rest =>
        cases hopt : c.optional with
        | false =>
          refine Or.inr (Or.inl ⟨rfl, ?_⟩)
          unfold consumerStep
          simp [hcn, hfb, htp, hopt]
        | true =>
          refine Or.inr (Or.inr ⟨rfl, ?_⟩)
          unfold consumerStep
          simp [hcn, hfb, htp, hopt]

theorem consumerStep_errs_mono {byName byType} (igName jobName : String)
    (hN : wfByName byName) (hT : wfByType byType)
    (st : List (String × ConsumesInfo) × List String) (c : ConsumesInfo)
    (e : String) (he : e ∈ st.2) :
    e ∈ (consumerStep byName byType igName jobName st c).2 := by
  rcases consumerStep_cases igName jobName hN hT st c with
    ⟨k, newInfo, _, _, heq⟩ | ⟨_, heq⟩ | ⟨_, heq⟩ <;> rw [heq]
  exacts [he, List.mem_append_left _ he, he]

theorem loop2_errs_mono {byName byType} (igName jobName : String)
    (hN : wfByName byName) (hT : wfByType byType) :
    ∀ (expected : List ConsumesInfo)
      (st : List (String × ConsumesInfo) × List String) (e : String),
      e ∈ st.2 →
      e ∈ (expected.foldl (consumerStep byName byType igName jobName) st).2 := by
  intro expected
  induction expected with
  | nil => intro st e he; exact he
  | cons c rest ih =>
    intro st e he
    rw [List.foldl_cons]
    exact ih _ e (consumerStep_errs_mono igName jobName hN hT st c e he)

theorem loop2_binding {byName byType} (igName jobName : String)
    (hN : wfByName byName) (hT : wfByType byType) :
    ∀ (expected : List ConsumesInfo)
      (st : List (String × ConsumesInfo) × List String) (k : String)
      (info : ConsumesInfo),
      alookup st.1 k = some info → ¬ info.roleName = "" →
      ∃ info2, alookup
          (expected.foldl (consumerStep byName byType igName jobName) st).1 k =
          some info2 ∧ ¬ info2.roleName = "" := by
  intro expected
  induction expected with
  | nil => intro st k info h1 h2; exact ⟨info, h1, h2⟩
  | cons c rest ih =>
    intro st k info h1 h2
    rw [List.foldl_cons]
    rcases consumerStep_cases igName jobName hN hT st c with
      ⟨keyName, newInfo, hpw, _, heq⟩ | ⟨_, heq⟩ | ⟨_, heq⟩
    · rw [heq]
      by_cases hk : keyName = k
      · subst hk
        exact ih (aset st.1 keyName newInfo, st.2) keyName newInfo
          (alookup_aset_self st.1 keyName newInfo) hpw
      · exact ih (aset st.1 keyName newInfo, st.2) k info (by
          rw [show (aset st.1 keyName newInfo, st.2).1 = aset st.1 keyName newInfo
            from rfl, alookup_aset_ne st.1 keyName k newInfo hk]
          exact h1) h2
    · rw [heq]
      exact ih _ k info h1 h2
    · rw [heq]
      exact ih _ k info h1 h2

theorem loop2_bound_or_error {byName byType} (igName jobName : String)
    (hN : wfByName byName) (hT : wfByType byType) :
    ∀ (expected : List ConsumesInfo)
      (st : List (String × ConsumesInfo) × List String) (c : ConsumesInfo),
      c ∈ expected → c.optional = false →
      (∃ k info, alookup
          (expected.foldl (consumerStep byName byType igName jobName) st).1 k =
            some info ∧ ¬ info.roleName = "" ∧ (¬ c.name = "" → k = c.name)) ∨
      (∃ e ∈ (expected.foldl (consumerStep byName byType igName jobName) st).2,
        ∃ suffix, e = mkConsumesField igName jobName c.name ++ suffix) := by
  intro expected
  induction expected with
  | nil => intro st c hc; cases hc
  | cons d rest ih =>
    intro st c hc hopt
    rcases List.mem_cons.mp hc with rfl | hc
    · rcases consumerStep_cases igName jobName hN hT st c with
        ⟨keyName, newInfo, hpw, hkey, heq⟩ | ⟨_, heq⟩ | ⟨hopt2, heq⟩
      · rw [List.foldl_cons, heq]
        obtain ⟨info2, hl, hw⟩ := loop2_binding igName jobName hN hT rest
          (aset st.1 keyName newInfo, st.2) keyName newInfo
          (alookup_aset_self st.1 keyName newInfo) hpw
        exact Or.inl ⟨keyName, info2, hl, hw, hkey⟩
      · rw [List.foldl_cons, heq]
        refine Or.inr ⟨mkConsumesField igName jobName c.name ++
          ": failed to resolve provider", ?_, ": failed to resolve provider", rfl⟩
        exact loop2_errs_mono igName jobName hN hT rest _ _
          (List.mem_append_right _ (List.mem_singleton.mpr rfl))
      · rw [hopt] at hopt2
        cases hopt2
    · rw [List.foldl_cons]
      exact ih _ c hc hopt

/-! ### Pass-B override loop (loop 1) invariants for C7 -/

theorem overrideStep_cases {byName} (igName jobName : String)
    (hN : wfByName byName)
    (st : List (String × ConsumesInfo) × List ConsumesInfo × List String)
    (ov : String × ConsumesInfo) :
    (∃ e, overrideStep byName igName jobName st ov =
        (st.1, st.2.1, st.2.2 ++ [e])) ∨
    (ov.2.ignore = true ∧ overrideStep byName igName jobName st ov =
        (aerase st.1 ov.1, removeFirstConsumer st.2.1 ov.1, st.2.2)) ∨
    (∃ p, ¬ ProvidesInfo.roleName p = "" ∧
      overrideStep byName igName jobName st ov =
        (aset st.1 ov.1 (bindingFrom p), removeFirstConsumer st.2.1 ov.1,
          st.2.2)) := by
  unfold overrideStep
  by_cases hal : (if ov.2.aliasFrom = "" then ov.1 else ov.2.aliasFrom) = ""
  · rw [if_pos hal]
    exact Or.inl ⟨_, rfl⟩
  · rw [if_neg hal]
    cases hfb : alookup byName (if ov.2.aliasFrom = "" then ov.1 else ov.2.aliasFrom) with
    | none => exact Or.inl ⟨_, rfl⟩
    | some p =>
      cases hig : ov.2.ignore with
      | true =>
        refine Or.inr (Or.inl ⟨rfl, ?_⟩)
        simp [hig]
      | false =>
        refine Or.inr (Or.inr ⟨p, hN _ (alookup_mem byName _ p hfb), ?_⟩)
        simp [hig]

theorem mem_removeFirstConsumer (l : List ConsumesInfo) (cname : String)
    (c : ConsumesInfo) (hc : c ∈ l) (hne : ¬ c.name = cname) :
    c ∈ removeFirstConsumer l cname := by
  induction l with
  | nil => cases hc
  | cons d rest ih =>
    rcases List.mem_cons.mp hc with rfl | hc
    · rw [removeFirstConsumer, if_neg hne]
      exact List.mem_cons_self c _
    · by_cases hd : d.name = cname
      · rw [removeFirstConsumer, if_pos hd]
        exact hc
      · rw [removeFirstConsumer, if_neg hd]
        exact List.mem_cons_of_mem d (ih hc)

theorem loop1_binding {byName} (igName jobName : String)
    (hN : wfByName byName) :
    ∀ (ovs : List (String × ConsumesInfo))
      (st : List (String × ConsumesInfo) × List ConsumesInfo × List String)
      (k : String) (info : ConsumesInfo),
      alookup st.1 k = some info → ¬ info.roleName = "" →
      (∀ ov ∈ ovs, ¬ (ov.1 = k ∧ ov.2.ignore = true)) →
      ∃ info2, alookup
          (ovs.foldl (overrideStep byName igName jobName) st).1 k =
          some info2 ∧ ¬ info2.roleName = "" := by
  intro ovs
  induction ovs with
  | nil => intro st k info h1 h2 _; exact ⟨info, h1, h2⟩
  | cons ov rest ih =>
    intro st k info h1 h2 hno
    have hno' : ∀ o ∈ rest, ¬ (o.1 = k ∧ o.2.ignore = true) :=
      fun o ho => hno o (List.mem_cons_of_mem ov ho)
    rw [List.foldl_cons]
    rcases overrideStep_cases igName jobName hN st ov with
      ⟨e, heq⟩ | ⟨hig, heq⟩ | ⟨p, hpw, heq⟩
    · rw [heq]
      exact ih _ k info h1 h2 hno'
    · rw [heq]
      have hk : ¬ ov.1 = k := fun hk =>
        hno ov (List.mem_cons_self ov rest) ⟨hk, hig⟩
      exact ih _ k info (by
        show alookup (aerase st.1 ov.1) k = some info
        rw [alookup_aerase_ne st.1 ov.1 k hk]
        exact h1) h2 hno'
    · rw [heq]
      by_cases hk : ov.1 = k
      · subst hk
        exact ih _ ov.1 (bindingFrom p)
          (alookup_aset_self st.1 ov.1 (bindingFrom p)) hpw hno'
      · exact ih _ k info (by
          show alookup (aset st.1 ov.1 (bindingFrom p)) k = some info
          rw [alookup_aset_ne st.1 ov.1 k (bindingFrom p) hk]
          exact h1) h2 hno'

/-- The final pass-B state reached from an intermediate override-loop
state: finish the override loop, then run the expected-consumer loop. -/
def passBFrom (byName : List (String × ProvidesInfo))
    (byType : List (String × List ProvidesInfo)) (igName jobName : String)
    (ovs : List (String × ConsumesInfo))
    (st : List (String × ConsumesInfo) × List ConsumesInfo × List String) :
    List (String × ConsumesInfo) × List String :=
  let st1 := ovs.foldl (overrideStep byName igName jobName) st
  st1.2.1.foldl (consumerStep byName byType igName jobName) (st1.1, st1.2.2)

theorem resolveJobConsumers_eq_passBFrom (byName byType igName) (j : JobRefL) :
    resolveJobConsumers byName byType igName j =
      passBFrom byName byType igName j.name j.resolvedConsumes
        (j.resolvedConsumes, j.desiredConsumers, []) := rfl

theorem loop1_bound_or_error {byName byType} (igName jobName : String)
    (hN : wfByName byName) (hT : wfByType byType) :
    ∀ (ovs : List (String × ConsumesInfo))
      (st : List (String × ConsumesInfo) × List ConsumesInfo × List String)
      (c : ConsumesInfo),
      c ∈ st.2.1 → c.optional = false →
      (∀ ov ∈ ovs, ¬ (ov.1 = c.name ∧ ov.2.ignore = true)) →
      (∃ k info, alookup
          (passBFrom byName byType igName jobName ovs st).1 k = some info ∧
          ¬ info.roleName = "" ∧ (¬ c.name = "" → k = c.name)) ∨
      (∃ e ∈ (passBFrom byName byType igName jobName ovs st).2,
        ∃ suffix, e = mkConsumesField igName jobName c.name ++ suffix) := by
  intro ovs
  induction ovs with
  | nil =>
    intro st c hc hopt _
    exact loop2_bound_or_error igName jobName hN hT st.2.1 (st.1, st.2.2) c
      hc hopt
  | cons ov rest ih =>
    intro st c hc hopt hno
    have hno' : ∀ o ∈ rest, ¬ (o.1 = c.name ∧ o.2.ignore = true) :=
      fun o ho => hno o (List.mem_cons_of_mem ov ho)
    have hstep : passBFrom byName byType igName jobName (ov :: rest) st =
        passBFrom byName byType igName jobName rest
          (overrideStep byName igName jobName st ov) := rfl
    rw [hstep]
    rcases overrideStep_cases igName jobName hN st ov with
      ⟨e, heq⟩ | ⟨hig, heq⟩ | ⟨p, hpw, heq⟩
    · rw [heq]
      exact ih _ c hc hopt hno'
    · rw [heq]
      have hk : ¬ ov.1 = c.name := fun hk =>
        hno ov (List.mem_cons_self ov rest) ⟨hk, hig⟩
      exact ih _ c (mem_removeFirstConsumer st.2.1 ov.1 c hc
        (fun hcc => hk hcc.symm)) hopt hno'
    · rw [heq]
      by_cases hk : ov.1 = c.name
      · left
        obtain ⟨info1, hl1, hw1⟩ := loop1_binding igName jobName hN rest
          (aset st.1 ov.1 (bindingFrom p), removeFirstConsumer st.2.1 ov.1,
            st.2.2) ov.1 (bindingFrom p)
          (alookup_aset_self st.1 ov.1 (bindingFrom p)) hpw
          (fun o ho hok => hno' o ho ⟨hok.1.trans hk, hok.2⟩)
        obtain ⟨info2, hl2, hw2⟩ := loop2_binding igName jobName hN hT
          (rest.foldl (overrideStep byName igName jobName)
            (aset st.1 ov.1 (bindingFrom p), removeFirstConsumer st.2.1 ov.1,
              st.2.2)).2.1
          ((rest.foldl (overrideStep byName igName jobName)
            (aset st.1 ov.1 (bindingFrom p), removeFirstConsumer st.2.1 ov.1,
              st.2.2)).1,
           (rest.foldl (overrideStep byName igName jobName)
            (aset st.1 ov.1 (bindingFrom p), removeFirstConsumer st.2.1 ov.1,
              st.2.2)).2.2)
          ov.1 info1 hl1 hw1
        exact ⟨ov.1, info2, hl2, hw2, fun _ => hk⟩
      · exact ih _ c (mem_removeFirstConsumer st.2.1 ov.1 c hc
          (fun hcc => hk hcc.symm)) hopt hno'

/-- C7 (amended): after `ResolveLinks`, for every job included in the
deployment, every non-optional declared consumer **that the role manifest
does not explicitly flag `ignore`** either has a bound provider recorded
in its `ResolvedConsumes` (an entry carrying the provider's instance
group, stored under the consumer's name when the consumer has one), or the
returned diagnostic list contains an entry naming that consumer's field
path.  (The non-empty group names hypothesis reflects that a recorded
binding is recognisable by its non-empty provider role name.) -/
theorem resolveLinks_nonoptional_bound_or_error (m : RoleManifestL)
    (hg : ∀ g ∈ m.instanceGroups, ¬ g.name = "") :
    ∀ g ∈ m.instanceGroups, ∀ j ∈ g.jobs, ∀ c ∈ j.desiredConsumers,
      c.optional = false →
      (∀ ov ∈ j.resolvedConsumes, ¬ (ov.1 = c.name ∧ ov.2.ignore = true)) →
      (∃ k info,
        alookup (resolveJobConsumers (passA m).byName (passA m).byType
          g.name j).1 k = some info ∧ ¬ info.roleName = "" ∧
          (¬ c.name = "" → k = c.name)) ∨
      (∃ e ∈ resolveLinksErrors m, ∃ suffix,
        e = mkConsumesField g.name j.name c.name ++ suffix) := by
  intro g hgm j hjm c hcm hopt hno
  obtain ⟨hN, hT⟩ := passA_wf m hg
  rw [resolveJobConsumers_eq_passBFrom]
  rcases loop1_bound_or_error g.name j.name hN hT j.resolvedConsumes
    (j.resolvedConsumes, j.desiredConsumers, []) c hcm hopt hno with
    ⟨k, info, hl, hw, hkey⟩ | ⟨e, he, suffix, hsuf⟩
  · exact Or.inl ⟨k, info, hl, hw, hkey⟩
  · refine Or.inr ⟨e, ?_, suffix, hsuf⟩
    unfold resolveLinksErrors
    refine List.mem_append_left _ (List.mem_append_right _ ?_)
    refine List.mem_flatten.mpr ⟨(g.jobs.map (fun j =>
      (resolveJobConsumers (passA m).byName (passA m).byType g.name j).2)).flatten,
      List.mem_map_of_mem _ hgm, ?_⟩
    refine List.mem_flatten.mpr ⟨(resolveJobConsumers (passA m).byName
      (passA m).byType g.name j).2, List.mem_map_of_mem _ hjm, ?_⟩
    rw [resolveJobConsumers_eq_passBFrom]
    exact he

/-- Witness for `resolveLinks_nonoptional_bound_or_error` at the
scenario-3 deployment. -/
theorem resolveLinks_nonoptional_bound_or_error_witness :
    (∃ k info,
      alookup (resolveJobConsumers
        (passA ⟨[⟨"A", [⟨"jobA", "", [("p1", ⟨"p1", "T", []⟩)], [], [], []⟩]⟩,
          ⟨"B", [⟨"jobB", "", [], [⟨"", "T", "", "", "", "", false, false⟩],
            [], []⟩]⟩]⟩).byName
        (passA ⟨[⟨"A", [⟨"jobA", "", [("p1", ⟨"p1", "T", []⟩)], [], [], []⟩]⟩,
          ⟨"B", [⟨"jobB", "", [], [⟨"", "T", "", "", "", "", false, false⟩],
            [], []⟩]⟩]⟩).byType
        "B" ⟨"jobB", "", [], [⟨"", "T", "", "", "", "", false, false⟩],
          [], []⟩).1 k = some info ∧ ¬ info.roleName = "" ∧
        (¬ ConsumesInfo.name ⟨"", "T", "", "", "", "", false, false⟩ = "" →
          k = ConsumesInfo.name ⟨"", "T", "", "", "", "", false, false⟩)) ∨
    (∃ e ∈ resolveLinksErrors ⟨[⟨"A", [⟨"jobA", "",
        [("p1", ⟨"p1", "T", []⟩)], [], [], []⟩]⟩,
      ⟨"B", [⟨"jobB", "", [], [⟨"", "T", "", "", "", "", false, false⟩],
        [], []⟩]⟩]⟩, ∃ suffix,
      e = mkConsumesField "B" "jobB" "" ++ suffix) :=
  resolveLinks_nonoptional_bound_or_error
    ⟨[⟨"A", [⟨"jobA", "", [("p1", ⟨"p1", "T", []⟩)], [], [], []⟩]⟩,
      ⟨"B", [⟨"jobB", "", [], [⟨"", "T", "", "", "", "", false, false⟩],
        [], []⟩]⟩]⟩
    (by decide) ⟨"B", [⟨"jobB", "", [], [⟨"", "T", "", "", "", "", false,
      false⟩], [], []⟩]⟩ (by decide)
    ⟨"jobB", "", [], [⟨"", "T", "", "", "", "", false, false⟩], [], []⟩
    (by decide) ⟨"", "T", "", "", "", "", false, false⟩ (by decide) rfl
    (by decide)

/-- The deployment showing that an `ignore`-flagged override defeats C7 as
stated: group `A` exports provider `p1` of type `T`; group `B`'s job
declares the non-optional consumer `p1`, and the role manifest overrides
it with `ignore: true`. -/
def ignoreManifest : RoleManifestL :=
  ⟨[⟨"A", [⟨"jobA", "", [("p1", ⟨"p1", "T", []⟩)], [], [("p1", "")], []⟩]⟩,
    ⟨"B", [⟨"jobB", "", [], [⟨"p1", "T", "", "", "", "", false, false⟩], [],
      [("p1", ⟨"", "", "", "", "", "", true, false⟩)]⟩]⟩]⟩

/-- C7 counterexample: in `ignoreManifest` the non-optional consumer `p1`
of `B/jobB` ends with an empty `ResolvedConsumes` (the ignore override
deletes its entry and suppresses binding) and `ResolveLinks` reports no
diagnostic at all — the consumer is neither bound nor named in an error,
contradicting the claim as stated. -/
theorem resolveLinks_ignore_counterexample :
    (⟨"jobB", "", [], [⟨"p1", "T", "", "", "", "", false, false⟩], [],
      [("p1", ⟨"", "", "", "", "", "", true, false⟩)]⟩ : JobRefL).desiredConsumers =
      [⟨"p1", "T", "", "", "", "", false, false⟩] ∧
    ConsumesInfo.optional ⟨"p1", "T", "", "", "", "", false, false⟩ = false ∧
    (resolveJobConsumers (passA ignoreManifest).byName
      (passA ignoreManifest).byType "B"
      ⟨"jobB", "", [], [⟨"p1", "T", "", "", "", "", false, false⟩], [],
        [("p1", ⟨"", "", "", "", "", "", true, false⟩)]⟩).1 = [] ∧
    resolveLinksErrors ignoreManifest = [] := by
  refine ⟨rfl, rfl, by decide, by decide⟩

/-! ## Dependency bucketing (`compilator.go`, `createDepBuckets`)

`createDepBuckets` topologically sorts the (not yet compiled) packages by
counting, for each package, how many of its dependencies are themselves in
the input; zero-counter packages are queued and their users' counters
decremented, over repeated passes until no progress is made, with queued
packages marked by dropping their counter to `-1`.  Packages whose name
begins with `ruby-2.` are collected separately and prepended to the whole
queue at the end.  The two Go maps (`depCount`, `revDeps`) are association
lists; the outer `keepRunning` loop carries fuel (one more than the
package count), which suffices because every continuing pass queues at
least one package. -/

/-- `depCount`: fingerprint → signed counter. -/
abbrev DepCounts := List (String × Int)

/-- Go `_, known := m[k]`. -/
def cknown (m : DepCounts) (k : String) : Bool := (alookup m k).isSome

/-- Go map read with zero default. -/
def cget (m : DepCounts) (k : String) : Int := (alookup m k).getD 0

/-- Go `m[k] += d` (read-modify-write with zero default). -/
def cadd (m : DepCounts) (k : String) (d : Int) : DepCounts :=
  aset m k (cget m k + d)

/-- Go `revDeps[k]` (`nil` when absent). -/
def rget (m : List (String × List Package)) (k : String) : List Package :=
  (alookup m k).getD []

/-- Go `revDeps[k] = append(revDeps[k], p)`. -/
def radd (m : List (String × List Package)) (k : String) (p : Package) :
    List (String × List Package) :=
  aset m k (rget m k ++ [p])

/-- First loop of `createDepBuckets`: `depCount[pkg.Fingerprint] = 0`. -/
def initDepCounts (packages : List Package) : DepCounts :=
  packages.foldl (fun m p => aset m p.fingerprint 0) []

/-- Second loop: count only dependencies that are themselves in `depCount`
(i.e. uncompiled inputs), and record the reverse edges. -/
def setupCounts (packages : List Package) (m0 : DepCounts) :
    DepCounts × List (String × List Package) :=
  packages.foldl (fun st p =>
    p.dependencies.foldl (fun st2 dep =>
      if cknown st2.1 dep then (cadd st2.1 p.fingerprint 1, radd st2.2 dep p)
      else st2) st) (m0, [])

/-- Character-list test for the literal name pattern `ruby-2.`. -/
def startsWithChars : List Char → List Char → Bool
  | [], _ => true
  | _ :: _, [] => false
  | c :: cs, d :: ds => c = d && startsWithChars cs ds

/-- Go `strings.HasPrefix(pkg.Name, "ruby-2.")`. -/
def isRubyName (name : String) : Bool :=
  startsWithChars (String.toList "ruby-2.") name.toList

/-- State of the queueing loop: counters, the two queues, and the pass's
`keepRunning` flag. -/
structure BucketState where
  counts : DepCounts
  rubies : List Package
  buckets : List Package
  moved : Bool
deriving DecidableEq, Repr

/-- One iteration of the inner `for _, pkg := range packages` loop: skip
unless the package's counter is zero; otherwise drop the counter to `-1`,
decrement every user's counter, and queue the package (rubies aside). -/
def bucketStep (revDeps : List (String × List Package)) (st : BucketState)
    (pkg : Package) : BucketState :=
  if ¬ cget st.counts pkg.fingerprint = 0 then st
  else
    let counts1 := cadd st.counts pkg.fingerprint (-1)
    let counts2 := (rget revDeps pkg.fingerprint).foldl
      (fun m usr => cadd m usr.fingerprint (-1)) counts1
    if isRubyName pkg.name then
      ⟨counts2, st.rubies ++ [pkg], st.buckets, true⟩
    else
      ⟨counts2, st.rubies, st.buckets ++ [pkg], true⟩

/-- One full pass over the packages (`keepRunning` reset at pass start). -/
def bucketPass (packages : List Package)
    (revDeps : List (String × List Package)) (st : BucketState) : BucketState :=
  packages.foldl (bucketStep revDeps) ⟨st.counts, st.rubies, st.buckets, false⟩

/-- The outer `for keepRunning` loop, with fuel. -/
def bucketLoop (packages : List Package)
    (revDeps : List (String × List Package)) :
    Nat → BucketState → BucketState
  | 0, st => st
  | fuel + 1, st =>
    let st2 := bucketPass packages revDeps st
    if st2.moved then bucketLoop packages revDeps fuel st2 else st2

/-- `createDepBuckets`: set up the counters and reverse-dependency map,
run passes to a fixpoint, and prepend the collected rubies to the queue. -/
def createDepBuckets (packages : List Package) : List Package :=
  let m0 := initDepCounts packages
  let setup := setupCounts packages m0
  let fin := bucketLoop packages setup.2 (packages.length + 1)
    ⟨setup.1, [], [], false⟩
  fin.rubies ++ fin.buckets

/-- The claim's ordering property: scanning the queue left to right, every
package's in-input dependencies have already been emitted. -/
def topoAux (fps : List String) : List String → List Package → Bool
  | _, [] => true
  | seen, p :: rest =>
    (p.dependencies.all (fun d => ! decide (d ∈ fps) || decide (d ∈ seen))) &&
      topoAux fps (seen ++ [p.fingerprint]) rest

/-- Dependencies-before-dependents over the whole queue (the claim's
statement of the emission order). -/
def topoOrdered (fps : List String) (queue : List Package) : Bool :=
  topoAux fps [] queue

/-- The amended ordering property: as `topoOrdered`, but packages named
`ruby-2.*` — moved to the queue front regardless of their dependencies —
are exempt. -/
def topoAuxNR (fps : List String) : List String → List Package → Bool
  | _, [] => true
  | seen, p :: rest =>
    (isRubyName p.name ||
      p.dependencies.all (fun d => ! decide (d ∈ fps) || decide (d ∈ seen))) &&
      topoAuxNR fps (seen ++ [p.fingerprint]) rest

/-- `topoOrdered` with the ruby exemption. -/
def topoOrderedExceptRuby (fps : List String) (queue : List Package) : Bool :=
  topoAuxNR fps [] queue

/-- C5 counterexample: for the acyclic input `{A (no deps),
ruby-2.6-pre (dep A)}` the returned queue is `[ruby-2.6-pre, A]` — the
ruby package is moved to the front *ahead of its own dependency*, so the
queue is not in the claimed topological order. -/
theorem createDepBuckets_ruby_counterexample :
    createDepBuckets [⟨"A", "fpA", []⟩, ⟨"ruby-2.6-pre", "fpR", ["fpA"]⟩] =
      [⟨"ruby-2.6-pre", "fpR", ["fpA"]⟩, ⟨"A", "fpA", []⟩] ∧
    topoOrdered
      ([⟨"A", "fpA", []⟩, ⟨"ruby-2.6-pre", "fpR", ["fpA"]⟩].map
        Package.fingerprint)
      (createDepBuckets [⟨"A", "fpA", []⟩, ⟨"ruby-2.6-pre", "fpR", ["fpA"]⟩]) =
      false := by
  refine ⟨by decide, by decide⟩

/-! ### C5 proof development -/

theorem countP_congr2 (l : List α) (p q : α → Bool)
    (h : ∀ a ∈ l, p a = q a) : l.countP p = l.countP q := by
  induction l with
  | nil => rfl
  | cons a rest ih =>
    rw [List.countP_cons, List.countP_cons,
      h a (List.mem_cons_self a rest),
      ih (fun x hx => h x (List.mem_cons_of_mem a hx))]

theorem countP_split (l : List α) (p q : α → Bool) :
    l.countP p = l.countP (fun a => p a && q a) +
      l.countP (fun a => p a && ! q a) := by
  induction l with
  | nil => rfl
  | cons a rest ih =>
    simp only [List.countP_cons]
    cases hp : p a <;> cases hq : q a <;> simp [hp, hq] <;> omega

theorem countP_mono_of_imp (l : List α) (p q : α → Bool)
    (h : ∀ a ∈ l, p a = true → q a = true) : l.countP p ≤ l.countP q := by
  induction l with
  | nil => exact Nat.le_refl _
  | cons a rest ih =>
    simp only [List.countP_cons]
    have h1 := ih (fun x hx => h x (List.mem_cons_of_mem a hx))
    cases hp : p a
    · cases q a <;> simp <;> omega
    · rw [h a (List.mem_cons_self a rest) hp]; omega

theorem countP_lt_of_imp (l : List α) (p q : α → Bool)
    (h : ∀ a ∈ l, p a = true → q a = true) (x : α) (hx : x ∈ l)
    (hq : q x = true) (hp : ¬ p x = true) : l.countP p < l.countP q := by
  induction l with
  | nil => cases hx
  | cons a rest ih =>
    simp only [List.countP_cons]
    rcases List.mem_cons.mp hx with hxa | hx'
    · rw [hxa] at hp hq
      rw [hq]
      have h1 := countP_mono_of_imp rest p q
        (fun y hy => h y (List.mem_cons_of_mem a hy))
      have h2 : p a = false := by
        cases hpa : p a
        · rfl
        · exact absurd hpa hp
      rw [h2]; simp; omega
    · have h1 := ih (fun y hy => h y (List.mem_cons_of_mem a hy)) hx'
      have h2 : (if p a = true then 1 else 0) ≤ (if q a = true then 1 else 0) := by
        by_cases hpa : p a = true
        · rw [if_pos hpa, if_pos (h a (List.mem_cons_self a rest) hpa)]
        · rw [if_neg hpa]; omega
      omega

theorem aset_keys_of_mem (m : List (String × α)) (k : String) (v : α)
    (h : (alookup m k).isSome) :
    (aset m k v).map Prod.fst = m.map Prod.fst := by
  induction m with
  | nil => simp [alookup] at h
  | cons e rest ih =>
    by_cases he : e.1 = k
    · rw [aset, if_pos he]; simp [he]
    · rw [aset, if_neg he]
      rw [alookup, if_neg he] at h
      simp [ih h]

theorem aset_keys_of_not_mem (m : List (String × α)) (k : String) (v : α)
    (h : ¬ k ∈ m.map Prod.fst) :
    (aset m k v).map Prod.fst = m.map Prod.fst ++ [k] := by
  induction m with
  | nil => simp [aset]
  | cons e rest ih =>
    simp only [List.map_cons, List.mem_cons] at h
    push_neg at h
    have he : ¬ e.1 = k := fun hh => h.1 hh.symm
    rw [aset, if_neg he]
    simp [ih h.2]

theorem mem_aset_keys (m : List (String × α)) (k k' : String) (v : α) :
    k' ∈ (aset m k v).map Prod.fst ↔ k' ∈ m.map Prod.fst ∨ k' = k := by
  induction m with
  | nil => simp [aset]
  | cons e rest ih =>
    by_cases he : e.1 = k
    · rw [aset, if_pos he]
      simp only [List.map_cons, List.mem_cons, he]
      tauto
    · rw [aset, if_neg he]
      simp only [List.map_cons, List.mem_cons, ih]
      tauto

theorem cknown_iff (m : DepCounts) (k : String) :
    cknown m k = true ↔ k ∈ m.map Prod.fst := by
  unfold cknown
  induction m with
  | nil => simp [alookup]
  | cons e rest ih =>
    by_cases he : e.1 = k
    · simp [alookup, he]
    · rw [alookup, if_neg he]
      have hne : ¬ k = e.1 := fun hh => he hh.symm
      simp [List.mem_cons, hne, ih]

theorem cknown_eq_decide (m : DepCounts) (k : String) :
    cknown m k = decide (k ∈ m.map Prod.fst) := by
  cases h : cknown m k
  · symm
    simp only [decide_eq_false_iff_not]
    intro hmem
    rw [(cknown_iff m k).mpr hmem] at h
    cases h
  · symm
    simp only [decide_eq_true_eq]
    exact (cknown_iff m k).mp h

theorem cget_cadd_self (m : DepCounts) (k : String) (d : Int) :
    cget (cadd m k d) k = cget m k + d := by
  unfold cget cadd
  rw [alookup_aset_self]
  rfl

theorem cget_cadd_ne (m : DepCounts) (k k' : String) (d : Int)
    (h : ¬ k = k') : cget (cadd m k d) k' = cget m k' := by
  unfold cget cadd
  rw [alookup_aset_ne _ _ _ _ h]

theorem cadd_keys (m : DepCounts) (k : String) (d : Int)
    (h : k ∈ m.map Prod.fst) :
    (cadd m k d).map Prod.fst = m.map Prod.fst := by
  apply aset_keys_of_mem
  have := (cknown_iff m k).mpr h
  unfold cknown at this
  exact this

theorem rget_radd_self (m : List (String × List Package)) (k : String)
    (p : Package) : rget (radd m k p) k = rget m k ++ [p] := by
  unfold rget radd
  rw [alookup_aset_self]
  rfl

theorem rget_radd_ne (m : List (String × List Package)) (k k' : String)
    (p : Package) (h : ¬ k = k') : rget (radd m k p) k' = rget m k' := by
  unfold rget radd
  rw [alookup_aset_ne _ _ _ _ h]

theorem decfold_cget (L : List Package) :
    ∀ (m : DepCounts) (k : String),
      cget (L.foldl (fun m2 usr => cadd m2 usr.fingerprint (-1)) m) k =
        cget m k - (L.countP (fun usr => usr.fingerprint = k) : Int) := by
  induction L with
  | nil => intro m k; simp
  | cons u rest ih =>
    intro m k
    rw [List.foldl_cons, ih, List.countP_cons]
    by_cases hu : u.fingerprint = k
    · rw [hu, cget_cadd_self]
      simp [hu]
      omega
    · rw [cget_cadd_ne _ _ _ _ hu]
      simp [hu]

theorem decfold_keys (L : List Package) :
    ∀ (m : DepCounts), (∀ u ∈ L, u.fingerprint ∈ m.map Prod.fst) →
      (L.foldl (fun m2 usr => cadd m2 usr.fingerprint (-1)) m).map Prod.fst =
        m.map Prod.fst := by
  induction L with
  | nil => intro m _; rfl
  | cons u rest ih =>
    intro m h
    rw [List.foldl_cons]
    have h1 : u.fingerprint ∈ m.map Prod.fst := h u (List.mem_cons_self u rest)
    have hkeys := cadd_keys m u.fingerprint (-1) h1
    rw [ih _ (fun x hx => by
      rw [hkeys]; exact h x (List.mem_cons_of_mem u hx)), hkeys]

/-- The body of the second setup loop (counting known dependencies and
recording reverse edges). -/
def setupInnerStep (p : Package)
    (st2 : DepCounts × List (String × List Package)) (dep : String) :
    DepCounts × List (String × List Package) :=
  if cknown st2.1 dep then (cadd st2.1 p.fingerprint 1, radd st2.2 dep p)
  else st2

/-- The body of the outer setup loop. -/
def setupOuterStep (st : DepCounts × List (String × List Package))
    (p : Package) : DepCounts × List (String × List Package) :=
  p.dependencies.foldl (setupInnerStep p) st

theorem setupCounts_eq (packages : List Package) (m0 : DepCounts) :
    setupCounts packages m0 = packages.foldl setupOuterStep (m0, []) := rfl

theorem setupInner_keys (p : Package) (L : List String) :
    ∀ (st : DepCounts × List (String × List Package)),
      p.fingerprint ∈ st.1.map Prod.fst →
      (L.foldl (setupInnerStep p) st).1.map Prod.fst = st.1.map Prod.fst := by
  induction L with
  | nil => intro st _; rfl
  | cons dep rest ih =>
    intro st hmem
    rw [List.foldl_cons]
    by_cases hk : cknown st.1 dep = true
    · have hstep : setupInnerStep p st dep =
          (cadd st.1 p.fingerprint 1, radd st.2 dep p) := by
        unfold setupInnerStep; rw [if_pos hk]
      rw [hstep]
      have hkeys := cadd_keys st.1 p.fingerprint 1 hmem
      rw [ih _ (by
        show p.fingerprint ∈ List.map Prod.fst (cadd st.1 p.fingerprint 1)
        rw [hkeys]; exact hmem)]
      exact hkeys
    · have hstep : setupInnerStep p st dep = st := by
        unfold setupInnerStep; rw [if_neg hk]
      rw [hstep, ih _ hmem]

theorem setupInner_cget_self (p : Package) (K : String → Bool)
    (L : List String) :
    ∀ (st : DepCounts × List (String × List Package)),
      p.fingerprint ∈ st.1.map Prod.fst →
      (∀ d, cknown st.1 d = K d) →
      cget (L.foldl (setupInnerStep p) st).1 p.fingerprint =
        cget st.1 p.fingerprint + (L.countP K : Int) := by
  induction L with
  | nil => intro st _ _; simp
  | cons dep rest ih =>
    intro st hmem hK
    rw [List.foldl_cons, List.countP_cons]
    by_cases hk : cknown st.1 dep = true
    · have hstep : setupInnerStep p st dep =
          (cadd st.1 p.fingerprint 1, radd st.2 dep p) := by
        unfold setupInnerStep; rw [if_pos hk]
      have hkeys := cadd_keys st.1 p.fingerprint 1 hmem
      have hK' : ∀ d, cknown (cadd st.1 p.fingerprint 1) d = K d := by
        intro d
        rw [cknown_eq_decide, hkeys, ← cknown_eq_decide]
        exact hK d
      rw [hstep, ih _ (by
        show p.fingerprint ∈ List.map Prod.fst (cadd st.1 p.fingerprint 1)
        rw [hkeys]; exact hmem) hK']
      have hKdep : K dep = true := (hK dep) ▸ hk
      rw [hKdep]
      simp only [cget_cadd_self]
      push_cast
      ring
    · have hstep : setupInnerStep p st dep = st := by
        unfold setupInnerStep; rw [if_neg hk]
      have hKdep : K dep = false := by
        rw [← hK dep]
        cases hc : cknown st.1 dep
        · rfl
        · exact absurd hc hk
      rw [hstep, ih _ hmem hK, hKdep]
      simp

theorem setupInner_cget_ne (p : Package) (k : String)
    (hne : ¬ p.fingerprint = k) (L : List String) :
    ∀ (st : DepCounts × List (String × List Package)),
      cget (L.foldl (setupInnerStep p) st).1 k = cget st.1 k := by
  induction L with
  | nil => intro st; rfl
  | cons dep rest ih =>
    intro st
    rw [List.foldl_cons]
    by_cases hk : cknown st.1 dep = true
    · have hstep : setupInnerStep p st dep =
          (cadd st.1 p.fingerprint 1, radd st.2 dep p) := by
        unfold setupInnerStep; rw [if_pos hk]
      rw [hstep, ih]
      exact cget_cadd_ne _ _ _ _ hne
    · have hstep : setupInnerStep p st dep = st := by
        unfold setupInnerStep; rw [if_neg hk]
      rw [hstep, ih]

theorem setupInner_rev (p : Package) (f : String) (P : Package → Bool)
    (K : String → Bool) (L : List String) :
    ∀ (st : DepCounts × List (String × List Package)),
      p.fingerprint ∈ st.1.map Prod.fst →
      (∀ d, cknown st.1 d = K d) →
      (rget (L.foldl (setupInnerStep p) st).2 f).countP P =
        (rget st.2 f).countP P +
          (if K f then L.countP (fun d => d = f) else 0) *
            (if P p then 1 else 0) := by
  induction L with
  | nil => intro st _ _; simp
  | cons dep rest ih =>
    intro st hmem hK
    rw [List.foldl_cons, List.countP_cons]
    by_cases hk : cknown st.1 dep = true
    · have hstep : setupInnerStep p st dep =
          (cadd st.1 p.fingerprint 1, radd st.2 dep p) := by
        unfold setupInnerStep; rw [if_pos hk]
      have hkeys := cadd_keys st.1 p.fingerprint 1 hmem
      have hK' : ∀ d, cknown (cadd st.1 p.fingerprint 1) d = K d := by
        intro d
        rw [cknown_eq_decide, hkeys, ← cknown_eq_decide]
        exact hK d
      rw [hstep, ih _ (by
        show p.fingerprint ∈ List.map Prod.fst (cadd st.1 p.fingerprint 1)
        rw [hkeys]; exact hmem) hK']
      by_cases hdf : dep = f
      · have hrg : rget (radd st.2 dep p) f = rget st.2 f ++ [p] := by
          rw [hdf]; exact rget_radd_self _ _ _
        have hKf : K f = true := by rw [← hdf, ← hK dep]; exact hk
        rw [hrg, List.countP_append, hKf]
        simp only [hdf, decide_True, if_true]
        by_cases hP : P p = true
        · rw [if_pos hP]
          simp [List.countP_cons, hP]
          ring
        · have hPf : P p = false := by
            cases hc : P p
            · rfl
            · exact absurd hc hP
          rw [hPf]
          simp [List.countP_cons, hPf]
      · have hrg : rget (radd st.2 dep p) f = rget st.2 f :=
          rget_radd_ne _ _ _ _ hdf
        rw [hrg]
        simp [hdf]
    · have hstep : setupInnerStep p st dep = st := by
        unfold setupInnerStep; rw [if_neg hk]
      have hKdep : K dep = false := by
        rw [← hK dep]
        cases hc : cknown st.1 dep
        · rfl
        · exact absurd hc hk
      rw [hstep, ih _ hmem hK]
      by_cases hdf : dep = f
      · rw [← hdf, hKdep]
        simp
      · simp [hdf]

theorem setupInner_rev_mem (p : Package) (f : String) (L : List String) :
    ∀ (st : DepCounts × List (String × List Package))
      (u : Package), u ∈ rget (L.foldl (setupInnerStep p) st).2 f →
      u ∈ rget st.2 f ∨ u = p := by
  induction L with
  | nil => intro st u hu; exact Or.inl hu
  | cons dep rest ih =>
    intro st u hu
    rw [List.foldl_cons] at hu
    by_cases hk : cknown st.1 dep = true
    · have hstep : setupInnerStep p st dep =
          (cadd st.1 p.fingerprint 1, radd st.2 dep p) := by
        unfold setupInnerStep; rw [if_pos hk]
      rw [hstep] at hu
      rcases ih _ u hu with h | h
      · by_cases hdf : dep = f
        · rw [hdf, rget_radd_self] at h
          rcases List.mem_append.mp h with h2 | h2
          · exact Or.inl h2
          · exact Or.inr (List.mem_singleton.mp h2)
        · rw [rget_radd_ne _ _ _ _ hdf] at h
          exact Or.inl h
      · exact Or.inr h
    · have hstep : setupInnerStep p st dep = st := by
        unfold setupInnerStep; rw [if_neg hk]
      rw [hstep] at hu
      exact ih _ u hu

theorem setupOuter_keys (ps : List Package) :
    ∀ (st : DepCounts × List (String × List Package)),
      (∀ p ∈ ps, p.fingerprint ∈ st.1.map Prod.fst) →
      (ps.foldl setupOuterStep st).1.map Prod.fst = st.1.map Prod.fst := by
  induction ps with
  | nil => intro st _; rfl
  | cons p rest ih =>
    intro st h
    rw [List.foldl_cons]
    have hp : p.fingerprint ∈ st.1.map Prod.fst := h p (List.mem_cons_self p rest)
    have hkeys : (setupOuterStep st p).1.map Prod.fst = st.1.map Prod.fst :=
      setupInner_keys p p.dependencies st hp
    rw [ih _ (fun x hx => by
      rw [hkeys]; exact h x (List.mem_cons_of_mem p hx)), hkeys]

theorem setupOuter_cget (K : String → Bool) (kk : String) (ps : List Package) :
    ∀ (st : DepCounts × List (String × List Package)),
      (∀ d, cknown st.1 d = K d) →
      (∀ p ∈ ps, p.fingerprint ∈ st.1.map Prod.fst) →
      cget (ps.foldl setupOuterStep st).1 kk =
        cget st.1 kk +
          ((ps.map (fun p => if p.fingerprint = kk then
            p.dependencies.countP K else 0)).sum : Int) := by
  induction ps with
  | nil => intro st _ _; simp
  | cons p rest ih =>
    intro st hK hmem
    rw [List.foldl_cons]
    simp only [List.map_cons, List.sum_cons]
    have hp : p.fingerprint ∈ st.1.map Prod.fst := hmem p (List.mem_cons_self p rest)
    have hkeys : (setupOuterStep st p).1.map Prod.fst = st.1.map Prod.fst :=
      setupInner_keys p p.dependencies st hp
    have hK' : ∀ d, cknown (setupOuterStep st p).1 d = K d := by
      intro d
      rw [cknown_eq_decide, hkeys, ← cknown_eq_decide]
      exact hK d
    have hmem' : ∀ q ∈ rest, q.fingerprint ∈ (setupOuterStep st p).1.map Prod.fst := by
      intro q hq
      rw [hkeys]
      exact hmem q (List.mem_cons_of_mem p hq)
    rw [ih _ hK' hmem']
    by_cases hpk : p.fingerprint = kk
    · have hval : cget (setupOuterStep st p).1 kk =
          cget st.1 kk + (p.dependencies.countP K : Int) := by
        rw [← hpk]
        exact setupInner_cget_self p K p.dependencies st hp hK
      rw [hval, if_pos hpk]
      ring
    · have hval : cget (setupOuterStep st p).1 kk = cget st.1 kk :=
        setupInner_cget_ne p kk hpk p.dependencies st
      rw [hval, if_neg hpk]
      ring

theorem setupOuter_rev (f : String) (P : Package → Bool) (K : String → Bool)
    (ps : List Package) :
    ∀ (st : DepCounts × List (String × List Package)),
      (∀ d, cknown st.1 d = K d) →
      (∀ p ∈ ps, p.fingerprint ∈ st.1.map Prod.fst) →
      (rget (ps.foldl setupOuterStep st).2 f).countP P =
        (rget st.2 f).countP P +
          (ps.map (fun p =>
            (if K f then p.dependencies.countP (fun d => d = f) else 0) *
              (if P p then 1 else 0))).sum := by
  induction ps with
  | nil => intro st _ _; simp
  | cons p rest ih =>
    intro st hK hmem
    rw [List.foldl_cons]
    simp only [List.map_cons, List.sum_cons]
    have hp : p.fingerprint ∈ st.1.map Prod.fst := hmem p (List.mem_cons_self p rest)
    have hkeys : (setupOuterStep st p).1.map Prod.fst = st.1.map Prod.fst :=
      setupInner_keys p p.dependencies st hp
    have hK' : ∀ d, cknown (setupOuterStep st p).1 d = K d := by
      intro d
      rw [cknown_eq_decide, hkeys, ← cknown_eq_decide]
      exact hK d
    have hmem' : ∀ q ∈ rest, q.fingerprint ∈ (setupOuterStep st p).1.map Prod.fst := by
      intro q hq
      rw [hkeys]
      exact hmem q (List.mem_cons_of_mem p hq)
    rw [ih _ hK' hmem',
      show setupOuterStep st p = p.dependencies.foldl (setupInnerStep p) st from rfl,
      setupInner_rev p f P K p.dependencies st hp hK]
    omega

theorem setupOuter_rev_mem (f : String) (ps : List Package) :
    ∀ (st : DepCounts × List (String × List Package)) (u : Package),
      u ∈ rget (ps.foldl setupOuterStep st).2 f →
      u ∈ rget st.2 f ∨ u ∈ ps := by
  induction ps with
  | nil => intro st u hu; exact Or.inl hu
  | cons p rest ih =>
    intro st u hu
    rw [List.foldl_cons] at hu
    rcases ih _ u hu with h | h
    · rcases setupInner_rev_mem p f p.dependencies st u h with h2 | h2
      · exact Or.inl h2
      · exact Or.inr (h2 ▸ List.mem_cons_self p rest)
    · exact Or.inr (List.mem_cons_of_mem p h)

theorem initDepCounts_mem (packages : List Package) (k : String) :
    k ∈ (initDepCounts packages).map Prod.fst ↔
      k ∈ packages.map Package.fingerprint := by
  unfold initDepCounts
  suffices h : ∀ (ps : List Package) (m : DepCounts),
      k ∈ (ps.foldl (fun m2 p => aset m2 p.fingerprint 0) m).map Prod.fst ↔
        k ∈ m.map Prod.fst ∨ k ∈ ps.map Package.fingerprint by
    rw [h packages []]
    simp
  intro ps
  induction ps with
  | nil => intro m; simp
  | cons p rest ih =>
    intro m
    rw [List.foldl_cons, ih]
    simp only [mem_aset_keys, List.map_cons, List.mem_cons]
    tauto

theorem initDepCounts_keys (packages : List Package)
    (hnodup : (packages.map Package.fingerprint).Nodup) :
    (initDepCounts packages).map Prod.fst = packages.map Package.fingerprint := by
  unfold initDepCounts
  suffices h : ∀ (ps : List Package) (m : DepCounts),
      (ps.map Package.fingerprint).Nodup →
      (∀ p ∈ ps, ¬ p.fingerprint ∈ m.map Prod.fst) →
      (ps.foldl (fun m2 p => aset m2 p.fingerprint 0) m).map Prod.fst =
        m.map Prod.fst ++ ps.map Package.fingerprint by
    rw [h packages [] hnodup (fun p _ => by simp)]
    rfl
  intro ps
  induction ps with
  | nil => intro m _ _; simp
  | cons p rest ih =>
    intro m hnd hnew
    rw [List.foldl_cons]
    rw [List.map_cons] at hnd
    have hnd' := List.nodup_cons.mp hnd
    have hpm : ¬ p.fingerprint ∈ m.map Prod.fst :=
      hnew p (List.mem_cons_self p rest)
    have haset := aset_keys_of_not_mem m p.fingerprint (0 : Int) hpm
    rw [ih _ hnd'.2 (fun q hq => by
      rw [haset]
      simp only [List.mem_append, List.mem_singleton]
      push_neg
      refine ⟨hnew q (List.mem_cons_of_mem p hq), ?_⟩
      intro hc
      exact hnd'.1 (hc ▸ List.mem_map_of_mem Package.fingerprint hq)), haset]
    simp

theorem sum_single_fp {β : Type _} [AddCommMonoid β] (kk : String)
    (g : Package → β) (ps : List Package) :
    (ps.map Package.fingerprint).Nodup →
    ∀ q ∈ ps, q.fingerprint = kk →
    (ps.map (fun p => if p.fingerprint = kk then g p else 0)).sum = g q := by
  induction ps with
  | nil => intro _ q hq; cases hq
  | cons p rest ih =>
    intro hnd q hq hqk
    rw [List.map_cons] at hnd
    have hnd' := List.nodup_cons.mp hnd
    simp only [List.map_cons, List.sum_cons]
    rcases List.mem_cons.mp hq with hqp | hq'
    · rw [hqp] at hqk ⊢
      rw [if_pos hqk]
      have hz : (rest.map (fun p2 => if p2.fingerprint = kk then g p2 else 0)).sum = 0 := by
        apply List.sum_eq_zero
        intro x hx
        rcases List.mem_map.mp hx with ⟨p2, hp2, hval⟩
        have : ¬ p2.fingerprint = kk := by
          intro hc
          exact hnd'.1 (hqk ▸ hc ▸ List.mem_map_of_mem Package.fingerprint hp2)
        rw [← hval, if_neg this]
      rw [hz]
      exact add_zero (g p)
    · have hp : ¬ p.fingerprint = kk := by
        intro hc
        exact hnd'.1 ((hc.trans hqk.symm) ▸ List.mem_map_of_mem Package.fingerprint hq')
      rw [if_neg hp, ih hnd'.2 q hq' hqk]
      simp

theorem map_congr2 (l : List α) (f g : α → β)
    (h : ∀ a ∈ l, f a = g a) : l.map f = l.map g := by
  induction l with
  | nil => rfl
  | cons a rest ih =>
    rw [List.map_cons, List.map_cons, h a (List.mem_cons_self a rest),
      ih (fun x hx => h x (List.mem_cons_of_mem a hx))]

/-- The state `createDepBuckets` computes in its two setup loops. -/
def theSetup (packages : List Package) :
    DepCounts × List (String × List Package) :=
  setupCounts packages (initDepCounts packages)

theorem initDepCounts_cget (packages : List Package) (k : String) :
    cget (initDepCounts packages) k = 0 := by
  unfold initDepCounts
  suffices h : ∀ (ps : List Package) (m : DepCounts),
      (∀ k2, cget m k2 = 0) →
      ∀ k2, cget (ps.foldl (fun m2 p => aset m2 p.fingerprint 0) m) k2 = 0 by
    exact h packages [] (fun _ => rfl) k
  intro ps
  induction ps with
  | nil => intro m h k2; exact h k2
  | cons p rest ih =>
    intro m h k2
    rw [List.foldl_cons]
    apply ih
    intro k3
    unfold cget
    by_cases hk : p.fingerprint = k3
    · rw [hk, alookup_aset_self]; rfl
    · rw [alookup_aset_ne _ _ _ _ hk]; exact h k3

theorem initDepCounts_cknown (packages : List Package) (d : String) :
    cknown (initDepCounts packages) d =
      decide (d ∈ packages.map Package.fingerprint) := by
  rw [cknown_eq_decide]
  exact decide_eq_decide.mpr (initDepCounts_mem packages d)

theorem theSetup_keys (packages : List Package)
    (hnodup : (packages.map Package.fingerprint).Nodup) :
    (theSetup packages).1.map Prod.fst = packages.map Package.fingerprint := by
  have h := setupOuter_keys packages
    (initDepCounts packages, ([] : List (String × List Package)))
    (fun p hp => by
      show p.fingerprint ∈ (initDepCounts packages).map Prod.fst
      rw [initDepCounts_mem]
      exact List.mem_map_of_mem Package.fingerprint hp)
  unfold theSetup
  rw [setupCounts_eq, h]
  exact initDepCounts_keys packages hnodup

theorem theSetup_cget (packages : List Package)
    (hnodup : (packages.map Package.fingerprint).Nodup)
    (q : Package) (hq : q ∈ packages) :
    cget (theSetup packages).1 q.fingerprint =
      (q.dependencies.countP
        (fun d => d ∈ packages.map Package.fingerprint) : Int) := by
  have h := setupOuter_cget
    (fun d => decide (d ∈ packages.map Package.fingerprint)) q.fingerprint
    packages (initDepCounts packages, ([] : List (String × List Package)))
    (fun d => initDepCounts_cknown packages d)
    (fun p hp => by
      show p.fingerprint ∈ (initDepCounts packages).map Prod.fst
      rw [initDepCounts_mem]
      exact List.mem_map_of_mem Package.fingerprint hp)
  unfold theSetup
  rw [setupCounts_eq, h]
  have hz : cget (initDepCounts packages, ([] : List (String × List Package))).1
      q.fingerprint = 0 := initDepCounts_cget packages q.fingerprint
  rw [hz, sum_single_fp q.fingerprint _ packages hnodup q hq rfl]
  simp

theorem theSetup_rev_countP (packages : List Package)
    (hnodup : (packages.map Package.fingerprint).Nodup)
    (q : Package) (hq : q ∈ packages) (f : String) :
    (rget (theSetup packages).2 f).countP
        (fun u => u.fingerprint = q.fingerprint) =
      if f ∈ packages.map Package.fingerprint then
        q.dependencies.countP (fun d => d = f) else 0 := by
  have h := setupOuter_rev f
    (fun u => decide (u.fingerprint = q.fingerprint))
    (fun d => decide (d ∈ packages.map Package.fingerprint))
    packages (initDepCounts packages, ([] : List (String × List Package)))
    (fun d => initDepCounts_cknown packages d)
    (fun p hp => by
      show p.fingerprint ∈ (initDepCounts packages).map Prod.fst
      rw [initDepCounts_mem]
      exact List.mem_map_of_mem Package.fingerprint hp)
  unfold theSetup
  rw [setupCounts_eq, h]
  have hmapeq := map_congr2 packages
    (fun p =>
      (if decide (f ∈ packages.map Package.fingerprint) = true then
        p.dependencies.countP (fun d => decide (d = f)) else 0) *
        (if decide (p.fingerprint = q.fingerprint) = true then 1 else 0))
    (fun p => if p.fingerprint = q.fingerprint then
      (if decide (f ∈ packages.map Package.fingerprint) = true then
        p.dependencies.countP (fun d => decide (d = f)) else 0) else 0)
    (fun p _ => by by_cases hp : p.fingerprint = q.fingerprint <;> simp [hp])
  rw [show (rget (initDepCounts packages,
      ([] : List (String × List Package))).2 f).countP
      (fun u => decide (u.fingerprint = q.fingerprint)) = 0 from rfl]
  rw [hmapeq, sum_single_fp q.fingerprint _ packages hnodup q hq rfl]
  by_cases hf : f ∈ packages.map Package.fingerprint <;> simp [hf]

theorem theSetup_rev_mem (packages : List Package) (f : String) (u : Package)
    (hu : u ∈ rget (theSetup packages).2 f) : u ∈ packages := by
  have h2 := setupOuter_rev_mem f packages
    (initDepCounts packages, ([] : List (String × List Package))) u hu
  rcases h2 with h | h
  · simp [rget, alookup] at h
  · exact h

/-- Fingerprints queued so far (rubies first, as in the final queue). -/
def queuedFps (st : BucketState) : List String :=
  (st.rubies ++ st.buckets).map Package.fingerprint

/-- The counter the loop maintains for an unqueued package: its in-input
dependencies not yet queued, with multiplicity. -/
def pendingDeps (fps queued : List String) (p : Package) : Nat :=
  p.dependencies.countP (fun d => decide (d ∈ fps) && ! decide (d ∈ queued))

/-- Invariant of the queueing loop's state. -/
structure DepInv (packages : List Package) (st : BucketState) : Prop where
  keys : st.counts.map Prod.fst = packages.map Package.fingerprint
  qsub : ∀ p ∈ st.rubies ++ st.buckets, p ∈ packages
  qnodup : (queuedFps st).Nodup
  cq : ∀ p ∈ packages, p.fingerprint ∈ queuedFps st →
    cget st.counts p.fingerprint < 0
  cu : ∀ p ∈ packages, ¬ p.fingerprint ∈ queuedFps st →
    cget st.counts p.fingerprint =
      (pendingDeps (packages.map Package.fingerprint) (queuedFps st) p : Int)
  rub : ∀ p ∈ st.rubies, isRubyName p.name = true
  nonrub : ∀ p ∈ st.buckets, isRubyName p.name = false
  topo : topoAuxNR (packages.map Package.fingerprint)
    (st.rubies.map Package.fingerprint) st.buckets = true

theorem depInv_moved (packages : List Package) (st : BucketState) (b : Bool)
    (h : DepInv packages st) :
    DepInv packages ⟨st.counts, st.rubies, st.buckets, b⟩ := by
  cases st
  exact ⟨h.keys, h.qsub, h.qnodup, h.cq, h.cu, h.rub, h.nonrub, h.topo⟩

theorem topoAuxNR_mono_seen (fps : List String) (b : List Package) :
    ∀ (seen seen' : List String), (∀ x ∈ seen, x ∈ seen') →
      topoAuxNR fps seen b = true → topoAuxNR fps seen' b = true := by
  induction b with
  | nil => intro seen seen' _ _; rfl
  | cons p rest ih =>
    intro seen seen' hsub h
    simp only [topoAuxNR, Bool.and_eq_true] at h ⊢
    refine ⟨?_, ih (seen ++ [p.fingerprint]) (seen' ++ [p.fingerprint]) ?_ h.2⟩
    · have h1 := h.1
      rw [Bool.or_eq_true] at h1 ⊢
      rcases h1 with hr | ha
      · exact Or.inl hr
      · right
        rw [List.all_eq_true] at ha ⊢
        intro d hd
        have h4 := ha d hd
        rw [Bool.or_eq_true] at h4 ⊢
        rcases h4 with h3 | h3
        · exact Or.inl h3
        · right
          simp only [decide_eq_true_eq] at h3 ⊢
          exact hsub d h3
    · intro x hx
      rcases List.mem_append.mp hx with h4 | h4
      · exact List.mem_append.mpr (Or.inl (hsub x h4))
      · exact List.mem_append.mpr (Or.inr h4)

theorem topoAuxNR_append_one (fps : List String) (b : List Package) :
    ∀ (seen : List String) (x : Package),
      topoAuxNR fps seen (b ++ [x]) =
        (topoAuxNR fps seen b &&
          (isRubyName x.name ||
            x.dependencies.all (fun d => ! decide (d ∈ fps) ||
              decide (d ∈ seen ++ b.map Package.fingerprint)))) := by
  induction b with
  | nil =>
    intro seen x
    simp only [List.nil_append, List.map_nil, List.append_nil, topoAuxNR]
    rw [Bool.and_true, Bool.true_and]
  | cons p rest ih =>
    intro seen x
    simp only [List.cons_append, topoAuxNR, List.map_cons, List.append_eq]
    rw [ih, Bool.and_assoc, List.append_assoc, List.singleton_append]

theorem topoAuxNR_rubies (fps : List String) (rs : List Package) :
    ∀ (seen : List String) (bs : List Package),
      (∀ p ∈ rs, isRubyName p.name = true) →
      topoAuxNR fps (seen ++ rs.map Package.fingerprint) bs = true →
      topoAuxNR fps seen (rs ++ bs) = true := by
  induction rs with
  | nil =>
    intro seen bs _ h
    rw [List.nil_append]
    rw [List.map_nil, List.append_nil] at h
    exact h
  | cons r rest ih =>
    intro seen bs hruby h
    simp only [List.cons_append, topoAuxNR, Bool.and_eq_true]
    constructor
    · rw [Bool.or_eq_true]
      exact Or.inl (hruby r (List.mem_cons_self r rest))
    · apply ih (seen ++ [r.fingerprint]) bs
        (fun p hp => hruby p (List.mem_cons_of_mem r hp))
      rw [List.append_assoc, List.singleton_append]
      rw [List.map_cons] at h
      exact h

theorem pendingDeps_queue (fps oldQ newQ : List String) (x : String)
    (p : Package) (hx : x ∈ fps) (hxo : ¬ x ∈ oldQ)
    (hnew : ∀ d, d ∈ newQ ↔ d ∈ oldQ ∨ d = x) :
    pendingDeps fps oldQ p =
      pendingDeps fps newQ p + p.dependencies.countP (fun d => d = x) := by
  unfold pendingDeps
  rw [countP_split p.dependencies
    (fun d => decide (d ∈ fps) && ! decide (d ∈ oldQ))
    (fun d => decide (d = x))]
  have h1 : p.dependencies.countP
      (fun d => (decide (d ∈ fps) && ! decide (d ∈ oldQ)) && decide (d = x)) =
      p.dependencies.countP (fun d => d = x) := by
    apply countP_congr2
    intro d _
    by_cases hd : d = x
    · simp [hd, hx, hxo]
    · simp [hd]
  have h2 : p.dependencies.countP
      (fun d => (decide (d ∈ fps) && ! decide (d ∈ oldQ)) && ! decide (d = x)) =
      p.dependencies.countP (fun d => decide (d ∈ fps) && ! decide (d ∈ newQ)) := by
    apply countP_congr2
    intro d _
    by_cases h3d : d = x
    · have hdn : d ∈ newQ := (hnew d).mpr (Or.inr h3d)
      simp [h3d, hdn]
      exact fun _ => h3d ▸ hdn
    · have hiff : (d ∈ newQ) ↔ (d ∈ oldQ) := by
        rw [hnew d]
        simp [h3d]
      by_cases h2d : d ∈ oldQ
      · have hdn : d ∈ newQ := hiff.mpr h2d
        simp [h2d, hdn, h3d]
      · have hdn : ¬ d ∈ newQ := fun hc => h2d (hiff.mp hc)
        simp [h2d, hdn, h3d]
  rw [h1, h2]
  omega

theorem bucketStep_skip (revDeps : List (String × List Package))
    (st : BucketState) (pkg : Package)
    (h : ¬ cget st.counts pkg.fingerprint = 0) :
    bucketStep revDeps st pkg = st := by
  unfold bucketStep
  rw [if_pos h]

theorem bucketStep_queue_ruby (revDeps : List (String × List Package))
    (st : BucketState) (pkg : Package)
    (h0 : cget st.counts pkg.fingerprint = 0)
    (hr : isRubyName pkg.name = true) :
    bucketStep revDeps st pkg =
      ⟨(rget revDeps pkg.fingerprint).foldl
        (fun m usr => cadd m usr.fingerprint (-1))
        (cadd st.counts pkg.fingerprint (-1)),
        st.rubies ++ [pkg], st.buckets, true⟩ := by
  unfold bucketStep
  rw [if_neg (not_not_intro h0), if_pos hr]

theorem bucketStep_queue_nonruby (revDeps : List (String × List Package))
    (st : BucketState) (pkg : Package)
    (h0 : cget st.counts pkg.fingerprint = 0)
    (hr : ¬ isRubyName pkg.name = true) :
    bucketStep revDeps st pkg =
      ⟨(rget revDeps pkg.fingerprint).foldl
        (fun m usr => cadd m usr.fingerprint (-1))
        (cadd st.counts pkg.fingerprint (-1)),
        st.rubies, st.buckets ++ [pkg], true⟩ := by
  unfold bucketStep
  rw [if_neg (not_not_intro h0), if_neg hr]

theorem bucketStep_inv (packages : List Package)
    (hnodup : (packages.map Package.fingerprint).Nodup)
    (st : BucketState) (pkg : Package) (hpkg : pkg ∈ packages)
    (hinv : DepInv packages st) :
    DepInv packages (bucketStep (theSetup packages).2 st pkg) := by
  by_cases h0 : cget st.counts pkg.fingerprint = 0
  case neg =>
    rw [bucketStep_skip _ _ _ h0]
    exact hinv
  case pos =>
    have hfp : pkg.fingerprint ∈ packages.map Package.fingerprint :=
      List.mem_map_of_mem Package.fingerprint hpkg
    have hunq : ¬ pkg.fingerprint ∈ queuedFps st := by
      intro hmem
      have := hinv.cq pkg hpkg hmem
      omega
    have hpend : pkg.dependencies.countP
        (fun d => decide (d ∈ packages.map Package.fingerprint) &&
          ! decide (d ∈ queuedFps st)) = 0 := by
      have h2 := hinv.cu pkg hpkg hunq
      have h3 : (pendingDeps (packages.map Package.fingerprint)
          (queuedFps st) pkg : Int) = 0 := by omega
      have h4 : pendingDeps (packages.map Package.fingerprint)
          (queuedFps st) pkg = 0 := by omega
      exact h4
    have hdeps : ∀ d ∈ pkg.dependencies,
        d ∈ packages.map Package.fingerprint → d ∈ queuedFps st := by
      intro d hd hdf
      by_contra hdq
      have h2 := List.countP_eq_zero.mp hpend d hd
      apply h2
      simp [hdf, hdq]
    have hkc : (cadd st.counts pkg.fingerprint (-1)).map Prod.fst =
        st.counts.map Prod.fst :=
      cadd_keys _ _ _ (by rw [hinv.keys]; exact hfp)
    have hks : ((rget (theSetup packages).2 pkg.fingerprint).foldl
        (fun m usr => cadd m usr.fingerprint (-1))
        (cadd st.counts pkg.fingerprint (-1))).map Prod.fst =
        packages.map Package.fingerprint := by
      rw [decfold_keys _ _ (fun u hu => by
        rw [hkc, hinv.keys]
        exact List.mem_map_of_mem Package.fingerprint
          (theSetup_rev_mem packages _ u hu)), hkc, hinv.keys]
    have hval : ∀ q ∈ packages, cget ((rget (theSetup packages).2
        pkg.fingerprint).foldl (fun m usr => cadd m usr.fingerprint (-1))
        (cadd st.counts pkg.fingerprint (-1))) q.fingerprint =
        cget (cadd st.counts pkg.fingerprint (-1)) q.fingerprint -
          (q.dependencies.countP (fun d => d = pkg.fingerprint) : Int) := by
      intro q hq
      rw [decfold_cget,
        theSetup_rev_countP packages hnodup q hq pkg.fingerprint, if_pos hfp]
    by_cases hr : isRubyName pkg.name = true
    · rw [bucketStep_queue_ruby _ _ _ h0 hr]
      have hnewmem : ∀ d,
          d ∈ ((st.rubies ++ [pkg]) ++ st.buckets).map Package.fingerprint ↔
          d ∈ queuedFps st ∨ d = pkg.fingerprint := by
        intro d
        simp only [queuedFps, List.map_append, List.mem_append,
          List.map_singleton, List.mem_singleton]
        tauto
      refine ⟨hks, ?_, ?_, ?_, ?_, ?_, ?_, ?_⟩
      · intro p hp
        rcases List.mem_append.mp hp with hp1 | hp2
        · rcases List.mem_append.mp hp1 with hp3 | hp4
          · exact hinv.qsub p (List.mem_append.mpr (Or.inl hp3))
          · rw [List.mem_singleton.mp hp4]; exact hpkg
        · exact hinv.qsub p (List.mem_append.mpr (Or.inr hp2))
      · show (((st.rubies ++ [pkg]) ++ st.buckets).map Package.fingerprint).Nodup
        rw [List.append_assoc, List.singleton_append, List.map_append,
          List.map_cons]
        apply List.nodup_middle.mpr
        apply List.nodup_cons.mpr
        constructor
        · intro hc
          apply hunq
          rw [queuedFps, List.map_append]
          exact hc
        · have h5 := hinv.qnodup
          rw [queuedFps, List.map_append] at h5
          exact h5
      · intro p hp hmem
        simp only [queuedFps] at hmem
        rw [hval p hp]
        have hq2 := (hnewmem p.fingerprint).mp hmem
        by_cases hpp : p.fingerprint = pkg.fingerprint
        · rw [hpp, cget_cadd_self, h0]
          omega
        · have hne : ¬ pkg.fingerprint = p.fingerprint := fun hh => hpp hh.symm
          rw [cget_cadd_ne _ _ _ _ hne]
          have hold : p.fingerprint ∈ queuedFps st := by
            rcases hq2 with h | h
            · exact h
            · exact absurd h hpp
          have := hinv.cq p hp hold
          omega
      · intro p hp hmem
        simp only [queuedFps] at hmem ⊢
        have hnotold : ¬ p.fingerprint ∈ queuedFps st := fun hc =>
          hmem ((hnewmem p.fingerprint).mpr (Or.inl hc))
        have hnotpkg : ¬ p.fingerprint = pkg.fingerprint := fun hc =>
          hmem ((hnewmem p.fingerprint).mpr (Or.inr hc))
        rw [hval p hp]
        have hne : ¬ pkg.fingerprint = p.fingerprint := fun hh => hnotpkg hh.symm
        rw [cget_cadd_ne _ _ _ _ hne, hinv.cu p hp hnotold]
        have hsplit := pendingDeps_queue (packages.map Package.fingerprint)
          (queuedFps st)
          (((st.rubies ++ [pkg]) ++ st.buckets).map Package.fingerprint)
          pkg.fingerprint p hfp hunq hnewmem
        rw [hsplit]
        push_cast
        ring
      · intro p hp
        rcases List.mem_append.mp hp with h | h
        · exact hinv.rub p h
        · rw [List.mem_singleton.mp h]; exact hr
      · exact hinv.nonrub
      · show topoAuxNR (packages.map Package.fingerprint)
          ((st.rubies ++ [pkg]).map Package.fingerprint) st.buckets = true
        apply topoAuxNR_mono_seen _ _ (st.rubies.map Package.fingerprint) _
          (fun x hx => by
            rw [List.map_append]
            exact List.mem_append.mpr (Or.inl hx))
          hinv.topo
    · rw [bucketStep_queue_nonruby _ _ _ h0 hr]
      have hnewmem : ∀ d,
          d ∈ (st.rubies ++ (st.buckets ++ [pkg])).map Package.fingerprint ↔
          d ∈ queuedFps st ∨ d = pkg.fingerprint := by
        intro d
        simp only [queuedFps, List.map_append, List.mem_append,
          List.map_singleton, List.mem_singleton]
        tauto
      refine ⟨hks, ?_, ?_, ?_, ?_, ?_, ?_, ?_⟩
      · intro p hp
        rcases List.mem_append.mp hp with hp1 | hp2
        · exact hinv.qsub p (List.mem_append.mpr (Or.inl hp1))
        · rcases List.mem_append.mp hp2 with hp3 | hp4
          · exact hinv.qsub p (List.mem_append.mpr (Or.inr hp3))
          · rw [List.mem_singleton.mp hp4]; exact hpkg
      · show ((st.rubies ++ (st.buckets ++ [pkg])).map Package.fingerprint).Nodup
        rw [← List.append_assoc, List.map_append, List.map_singleton]
        apply List.nodup_middle.mpr
        apply List.nodup_cons.mpr
        constructor
        · intro hc
          rw [List.append_nil] at hc
          apply hunq
          rw [queuedFps]
          exact hc
        · rw [List.append_nil]
          exact hinv.qnodup
      · intro p hp hmem
        simp only [queuedFps] at hmem
        rw [hval p hp]
        have hq2 := (hnewmem p.fingerprint).mp hmem
        by_cases hpp : p.fingerprint = pkg.fingerprint
        · rw [hpp, cget_cadd_self, h0]
          omega
        · have hne : ¬ pkg.fingerprint = p.fingerprint := fun hh => hpp hh.symm
          rw [cget_cadd_ne _ _ _ _ hne]
          have hold : p.fingerprint ∈ queuedFps st := by
            rcases hq2 with h | h
            · exact h
            · exact absurd h hpp
          have := hinv.cq p hp hold
          omega
      · intro p hp hmem
        simp only [queuedFps] at hmem ⊢
        have hnotold : ¬ p.fingerprint ∈ queuedFps st := fun hc =>
          hmem ((hnewmem p.fingerprint).mpr (Or.inl hc))
        have hnotpkg : ¬ p.fingerprint = pkg.fingerprint := fun hc =>
          hmem ((hnewmem p.fingerprint).mpr (Or.inr hc))
        rw [hval p hp]
        have hne : ¬ pkg.fingerprint = p.fingerprint := fun hh => hnotpkg hh.symm
        rw [cget_cadd_ne _ _ _ _ hne, hinv.cu p hp hnotold]
        have hsplit := pendingDeps_queue (packages.map Package.fingerprint)
          (queuedFps st)
          ((st.rubies ++ (st.buckets ++ [pkg])).map Package.fingerprint)
          pkg.fingerprint p hfp hunq hnewmem
        rw [hsplit]
        push_cast
        ring
      · exact hinv.rub
      · intro p hp
        rcases List.mem_append.mp hp with h | h
        · exact hinv.nonrub p h
        · rw [List.mem_singleton.mp h]
          cases hc : isRubyName pkg.name
          · rfl
          · exact absurd hc hr
      · show topoAuxNR (packages.map Package.fingerprint)
          (st.rubies.map Package.fingerprint) (st.buckets ++ [pkg]) = true
        rw [topoAuxNR_append_one, Bool.and_eq_true]
        constructor
        · exact hinv.topo
        · rw [Bool.or_eq_true]
          right
          rw [List.all_eq_true]
          intro d hd
          rw [Bool.or_eq_true]
          by_cases hdf : d ∈ packages.map Package.fingerprint
          · right
            simp only [decide_eq_true_eq]
            have h6 := hdeps d hd hdf
            rw [queuedFps, List.map_append] at h6
            exact h6
          · left
            simp [hdf]

/-- Number of packages not yet queued (the loop's termination measure). -/
def measureMu (packages : List Package) (st : BucketState) : Nat :=
  packages.countP (fun p => ! decide (p.fingerprint ∈ queuedFps st))

theorem bucketStep_moved_mono (revDeps : List (String × List Package))
    (st : BucketState) (pkg : Package) (h : st.moved = true) :
    (bucketStep revDeps st pkg).moved = true := by
  by_cases h0 : cget st.counts pkg.fingerprint = 0
  · by_cases hr : isRubyName pkg.name = true
    · rw [bucketStep_queue_ruby _ _ _ h0 hr]
    · rw [bucketStep_queue_nonruby _ _ _ h0 hr]
  · rw [bucketStep_skip _ _ _ h0]; exact h

theorem bucketStep_dichotomy (revDeps : List (String × List Package))
    (st : BucketState) (pkg : Package) :
    bucketStep revDeps st pkg = st ∨
    (cget st.counts pkg.fingerprint = 0 ∧
      (bucketStep revDeps st pkg).moved = true ∧
      pkg.fingerprint ∈ queuedFps (bucketStep revDeps st pkg) ∧
      (∀ x ∈ queuedFps st, x ∈ queuedFps (bucketStep revDeps st pkg))) := by
  by_cases h0 : cget st.counts pkg.fingerprint = 0
  · right
    by_cases hr : isRubyName pkg.name = true
    · rw [bucketStep_queue_ruby _ _ _ h0 hr]
      refine ⟨h0, rfl, ?_, ?_⟩
      · show pkg.fingerprint ∈
          ((st.rubies ++ [pkg]) ++ st.buckets).map Package.fingerprint
        simp
      · intro x hx
        show x ∈ ((st.rubies ++ [pkg]) ++ st.buckets).map Package.fingerprint
        rw [queuedFps] at hx
        simp only [List.map_append, List.mem_append] at hx ⊢
        tauto
    · rw [bucketStep_queue_nonruby _ _ _ h0 hr]
      refine ⟨h0, rfl, ?_, ?_⟩
      · show pkg.fingerprint ∈
          (st.rubies ++ (st.buckets ++ [pkg])).map Package.fingerprint
        simp
      · intro x hx
        show x ∈ (st.rubies ++ (st.buckets ++ [pkg])).map Package.fingerprint
        rw [queuedFps] at hx
        simp only [List.map_append, List.mem_append] at hx ⊢
        tauto
  · exact Or.inl (bucketStep_skip _ _ _ h0)

theorem foldl_moved_mono (revDeps : List (String × List Package))
    (l : List Package) :
    ∀ st : BucketState, st.moved = true →
      (l.foldl (bucketStep revDeps) st).moved = true := by
  induction l with
  | nil => intro st h; exact h
  | cons x rest ih =>
    intro st h
    rw [List.foldl_cons]
    exact ih _ (bucketStep_moved_mono revDeps st x h)

theorem foldl_queued_mono (revDeps : List (String × List Package))
    (l : List Package) :
    ∀ (st : BucketState) (x : String), x ∈ queuedFps st →
      x ∈ queuedFps (l.foldl (bucketStep revDeps) st) := by
  induction l with
  | nil => intro st x hx; exact hx
  | cons p rest ih =>
    intro st x hx
    rw [List.foldl_cons]
    apply ih
    rcases bucketStep_dichotomy revDeps st p with he | hq
    · rw [he]; exact hx
    · exact hq.2.2.2 x hx

theorem foldl_not_moved_steps (revDeps : List (String × List Package))
    (l : List Package) :
    ∀ st0 : BucketState, (l.foldl (bucketStep revDeps) st0).moved = false →
      l.foldl (bucketStep revDeps) st0 = st0 ∧
      ∀ x ∈ l, bucketStep revDeps st0 x = st0 := by
  induction l with
  | nil =>
    intro st0 _
    exact ⟨rfl, fun x hx => absurd hx (List.not_mem_nil x)⟩
  | cons x rest ih =>
    intro st0 h
    rw [List.foldl_cons] at h
    have hstep : bucketStep revDeps st0 x = st0 := by
      by_cases hm : (bucketStep revDeps st0 x).moved = true
      · have h2 := foldl_moved_mono revDeps rest _ hm
        rw [h2] at h
        exact Bool.noConfusion h
      · rcases bucketStep_dichotomy revDeps st0 x with he | hq
        · exact he
        · exact absurd hq.2.1 hm
    rw [hstep] at h
    have hih := ih st0 h
    refine ⟨by rw [List.foldl_cons, hstep]; exact hih.1, ?_⟩
    intro y hy
    rcases List.mem_cons.mp hy with hyx | hy'
    · rw [hyx]; exact hstep
    · exact hih.2 y hy'

theorem measure_foldl_mono (packages : List Package)
    (revDeps : List (String × List Package)) (l : List Package)
    (st : BucketState) :
    measureMu packages (l.foldl (bucketStep revDeps) st) ≤
      measureMu packages st := by
  unfold measureMu
  apply countP_mono_of_imp
  intro p _ h1
  simp only [Bool.not_eq_true', decide_eq_false_iff_not] at h1 ⊢
  intro hc
  exact h1 (foldl_queued_mono revDeps l st p.fingerprint hc)

theorem bucketFold_progress (packages : List Package)
    (hnodup : (packages.map Package.fingerprint).Nodup) (l : List Package) :
    (∀ x ∈ l, x ∈ packages) → ∀ st0 : BucketState, DepInv packages st0 →
      DepInv packages (l.foldl (bucketStep (theSetup packages).2) st0) ∧
      ((l.foldl (bucketStep (theSetup packages).2) st0).moved = true →
        st0.moved = true ∨
        measureMu packages (l.foldl (bucketStep (theSetup packages).2) st0) <
          measureMu packages st0) := by
  induction l with
  | nil => intro _ st0 h; exact ⟨h, fun hm => Or.inl hm⟩
  | cons x rest ih =>
    intro hl st0 h0
    have hl' : ∀ y ∈ rest, y ∈ packages :=
      fun y hy => hl y (List.mem_cons_of_mem x hy)
    have hx : x ∈ packages := hl x (List.mem_cons_self x rest)
    rw [List.foldl_cons]
    rcases bucketStep_dichotomy (theSetup packages).2 st0 x with he | hq
    · rw [he]
      exact ih hl' st0 h0
    · have hinv1 : DepInv packages (bucketStep (theSetup packages).2 st0 x) :=
        bucketStep_inv packages hnodup st0 x hx h0
      have hih := ih hl' (bucketStep (theSetup packages).2 st0 x) hinv1
      refine ⟨hih.1, fun _ => Or.inr ?_⟩
      have hlt : measureMu packages (bucketStep (theSetup packages).2 st0 x) <
          measureMu packages st0 := by
        unfold measureMu
        apply countP_lt_of_imp _ _ _ ?imp x hx ?qx ?px
        case imp =>
          intro p _ h1
          simp only [Bool.not_eq_true', decide_eq_false_iff_not] at h1 ⊢
          intro hc
          exact h1 (hq.2.2.2 p.fingerprint hc)
        case qx =>
          have hxq : ¬ x.fingerprint ∈ queuedFps st0 := by
            intro hc
            have := h0.cq x hx hc
            omega
          simp [hxq]
        case px =>
          simp [hq.2.2.1]
      have hle := measure_foldl_mono packages (theSetup packages).2 rest
        (bucketStep (theSetup packages).2 st0 x)
      omega

theorem bucketPass_inv_progress (packages : List Package)
    (hnodup : (packages.map Package.fingerprint).Nodup) (st : BucketState)
    (h : DepInv packages st) :
    DepInv packages (bucketPass packages (theSetup packages).2 st) ∧
    ((bucketPass packages (theSetup packages).2 st).moved = true →
      measureMu packages (bucketPass packages (theSetup packages).2 st) <
        measureMu packages st) := by
  have h0 : DepInv packages ⟨st.counts, st.rubies, st.buckets, false⟩ :=
    depInv_moved packages st false h
  have hp := bucketFold_progress packages hnodup packages (fun x hx => hx)
    ⟨st.counts, st.rubies, st.buckets, false⟩ h0
  refine ⟨hp.1, fun hm => ?_⟩
  rcases hp.2 hm with hmv | hlt
  · exact Bool.noConfusion hmv
  · exact hlt

theorem bucketLoop_succ (packages : List Package)
    (revDeps : List (String × List Package)) (n : Nat) (st : BucketState) :
    bucketLoop packages revDeps (n + 1) st =
      if (bucketPass packages revDeps st).moved then
        bucketLoop packages revDeps n (bucketPass packages revDeps st)
      else bucketPass packages revDeps st := rfl

theorem bucketLoop_fix (packages : List Package)
    (hnodup : (packages.map Package.fingerprint).Nodup) (fuel : Nat) :
    ∀ st : BucketState, DepInv packages st →
      measureMu packages st < fuel →
      DepInv packages (bucketLoop packages (theSetup packages).2 fuel st) ∧
      (bucketPass packages (theSetup packages).2
        (bucketLoop packages (theSetup packages).2 fuel st)).moved = false := by
  induction fuel with
  | zero => intro st _ hmu; exact absurd hmu (Nat.not_lt_zero _)
  | succ n ih =>
    intro st hinv hmu
    have hp := bucketPass_inv_progress packages hnodup st hinv
    rw [bucketLoop_succ]
    by_cases hm : (bucketPass packages (theSetup packages).2 st).moved = true
    · rw [if_pos hm]
      apply ih _ hp.1
      have := hp.2 hm
      omega
    · have hmf : (bucketPass packages (theSetup packages).2 st).moved = false := by
        cases hc : (bucketPass packages (theSetup packages).2 st).moved
        · rfl
        · exact absurd hc hm
      rw [if_neg hm]
      refine ⟨hp.1, ?_⟩
      have hm2 : (packages.foldl (bucketStep (theSetup packages).2)
          ⟨st.counts, st.rubies, st.buckets, false⟩).moved = false := hmf
      have hps := (foldl_not_moved_steps (theSetup packages).2 packages
        ⟨st.counts, st.rubies, st.buckets, false⟩ hm2).1
      have hpeq : bucketPass packages (theSetup packages).2 st =
          ⟨st.counts, st.rubies, st.buckets, false⟩ := hps
      rw [hpeq]
      show (packages.foldl (bucketStep (theSetup packages).2)
        ⟨st.counts, st.rubies, st.buckets, false⟩).moved = false
      exact hm2

theorem bucketStep_moved_of_zero (revDeps : List (String × List Package))
    (st : BucketState) (pkg : Package)
    (h : cget st.counts pkg.fingerprint = 0) :
    (bucketStep revDeps st pkg).moved = true := by
  by_cases hr : isRubyName pkg.name = true
  · rw [bucketStep_queue_ruby _ _ _ h hr]
  · rw [bucketStep_queue_nonruby _ _ _ h hr]

theorem fixpoint_all_queued (packages : List Package)
    (rank : String → Nat)
    (hrank : ∀ p ∈ packages, ∀ d ∈ p.dependencies,
      d ∈ packages.map Package.fingerprint → rank d < rank p.fingerprint)
    (T : BucketState) (hinv : DepInv packages T)
    (hfix : (bucketPass packages (theSetup packages).2 T).moved = false) :
    ∀ p ∈ packages, p.fingerprint ∈ queuedFps T := by
  have hm2 : (packages.foldl (bucketStep (theSetup packages).2)
      ⟨T.counts, T.rubies, T.buckets, false⟩).moved = false := hfix
  have hsteps := (foldl_not_moved_steps (theSetup packages).2 packages
    ⟨T.counts, T.rubies, T.buckets, false⟩ hm2).2
  have hcz : ∀ p ∈ packages, ¬ cget T.counts p.fingerprint = 0 := by
    intro p hp hc
    have hmv := bucketStep_moved_of_zero (theSetup packages).2
      ⟨T.counts, T.rubies, T.buckets, false⟩ p hc
    rw [hsteps p hp] at hmv
    exact Bool.noConfusion hmv
  intro p hp
  by_contra hq
  have hpU : p ∈ packages.filter
      (fun q => ! decide (q.fingerprint ∈ queuedFps T)) :=
    List.mem_filter.mpr ⟨hp, by simp [hq]⟩
  have hUne : packages.filter
      (fun q => ! decide (q.fingerprint ∈ queuedFps T)) ≠ [] :=
    List.ne_nil_of_mem hpU
  cases hargmin : (packages.filter
      (fun q => ! decide (q.fingerprint ∈ queuedFps T))).argmin
      (fun q => rank q.fingerprint) with
  | none => exact hUne (List.argmin_eq_none.mp hargmin)
  | some m =>
    have hmm : m ∈ packages.filter
        (fun q => ! decide (q.fingerprint ∈ queuedFps T)) :=
      List.argmin_mem (Option.mem_def.mpr hargmin)
    have hmU := List.mem_filter.mp hmm
    have hmP : m ∈ packages := hmU.1
    have hmq : ¬ m.fingerprint ∈ queuedFps T := by
      have h2 := hmU.2
      simp only [Bool.not_eq_true', decide_eq_false_iff_not] at h2
      exact h2
    have hcu := hinv.cu m hmP hmq
    have hpos : 0 < m.dependencies.countP
        (fun d => decide (d ∈ packages.map Package.fingerprint) &&
          ! decide (d ∈ queuedFps T)) := by
      have hnz := hcz m hmP
      have h3 : ¬ pendingDeps (packages.map Package.fingerprint)
          (queuedFps T) m = 0 := by
        intro h4
        rw [hcu, h4] at hnz
        exact hnz rfl
      have h5 : ¬ m.dependencies.countP
          (fun d => decide (d ∈ packages.map Package.fingerprint) &&
            ! decide (d ∈ queuedFps T)) = 0 := h3
      omega
    rcases List.countP_pos_iff.mp hpos with ⟨d, hd, hdp⟩
    have hdf : d ∈ packages.map Package.fingerprint := by
      have := hdp
      simp only [Bool.and_eq_true, decide_eq_true_eq] at this
      exact this.1
    have hdq : ¬ d ∈ queuedFps T := by
      have := hdp
      simp only [Bool.and_eq_true, Bool.not_eq_true',
        decide_eq_false_iff_not] at this
      exact this.2
    rcases List.mem_map.mp hdf with ⟨q, hqP, hqfp⟩
    have hqU : q ∈ packages.filter
        (fun q2 => ! decide (q2.fingerprint ∈ queuedFps T)) :=
      List.mem_filter.mpr ⟨hqP, by
        simp only [Bool.not_eq_true', decide_eq_false_iff_not]
        rw [hqfp]
        exact hdq⟩
    have hlt := hrank m hmP d hd hdf
    have hle := List.le_of_mem_argmin hqU (Option.mem_def.mpr hargmin)
    rw [hqfp] at hle
    omega

theorem createDepBuckets_eq (packages : List Package) :
    createDepBuckets packages =
      (bucketLoop packages (theSetup packages).2 (packages.length + 1)
        ⟨(theSetup packages).1, [], [], false⟩).rubies ++
      (bucketLoop packages (theSetup packages).2 (packages.length + 1)
        ⟨(theSetup packages).1, [], [], false⟩).buckets := rfl

theorem depInv_init (packages : List Package)
    (hnodup : (packages.map Package.fingerprint).Nodup) :
    DepInv packages ⟨(theSetup packages).1, [], [], false⟩ := by
  refine ⟨theSetup_keys packages hnodup, ?_, ?_, ?_, ?_, ?_, ?_, ?_⟩
  · intro p hp
    exact absurd hp (List.not_mem_nil p)
  · show (([] : List String)).Nodup
    exact List.nodup_nil
  · intro p _ hmem
    exact absurd hmem (List.not_mem_nil _)
  · intro p hp _
    show cget (theSetup packages).1 p.fingerprint =
      (pendingDeps (packages.map Package.fingerprint) [] p : Int)
    rw [theSetup_cget packages hnodup p hp]
    congr 1
    unfold pendingDeps
    apply countP_congr2
    intro d _
    simp
  · intro p hp
    exact absurd hp (List.not_mem_nil p)
  · intro p hp
    exact absurd hp (List.not_mem_nil p)
  · rfl

/-- C5 (amended): on any input whose fingerprints are distinct and whose
dependency relation is acyclic (witnessed by a rank function), the queue
returned by `createDepBuckets` is a permutation of the input (each package
exactly once); it consists of the `ruby-2.*` packages followed by the
rest; every non-ruby package appears only after all of its in-input
dependencies; and scenario 1 of the spec queues as `ruby-2.6, A, B, C`.
The ruby tie-break moves ruby packages to the front of the *whole* queue,
ahead of their own dependencies, so the claimed global topological order
holds only for non-ruby packages. -/
theorem createDepBuckets_spec (packages : List Package) (rank : String → Nat)
    (hnodup : (packages.map Package.fingerprint).Nodup)
    (hrank : ∀ p ∈ packages, ∀ d ∈ p.dependencies,
      d ∈ packages.map Package.fingerprint → rank d < rank p.fingerprint) :
    (createDepBuckets packages).Perm packages ∧
    (∃ rubies buckets, createDepBuckets packages = rubies ++ buckets ∧
      (∀ p ∈ rubies, isRubyName p.name = true) ∧
      (∀ p ∈ buckets, isRubyName p.name = false)) ∧
    topoOrderedExceptRuby (packages.map Package.fingerprint)
      (createDepBuckets packages) = true ∧
    createDepBuckets [⟨"A", "fpA", []⟩, ⟨"B", "fpB", ["fpA"]⟩,
        ⟨"ruby-2.6", "fpR", []⟩, ⟨"C", "fpC", ["fpB"]⟩] =
      [⟨"ruby-2.6", "fpR", []⟩, ⟨"A", "fpA", []⟩, ⟨"B", "fpB", ["fpA"]⟩,
        ⟨"C", "fpC", ["fpB"]⟩] := by
  have hinv0 := depInv_init packages hnodup
  have hmu : measureMu packages ⟨(theSetup packages).1, [], [], false⟩ <
      packages.length + 1 := by
    have h1 : measureMu packages ⟨(theSetup packages).1, [], [], false⟩ ≤
        packages.length := List.countP_le_length _
    omega
  have hfix := bucketLoop_fix packages hnodup (packages.length + 1) _ hinv0 hmu
  have hinvT : DepInv packages
      (bucketLoop packages (theSetup packages).2 (packages.length + 1)
        ⟨(theSetup packages).1, [], [], false⟩) := hfix.1
  have hall := fixpoint_all_queued packages rank hrank _ hinvT hfix.2
  have hQ := createDepBuckets_eq packages
  refine ⟨?_, ⟨_, _, hQ, hinvT.rub, hinvT.nonrub⟩, ?_, by decide⟩
  · rw [hQ]
    apply List.perm_of_nodup_nodup_toFinset_eq
    · exact List.Nodup.of_map Package.fingerprint hinvT.qnodup
    · exact List.Nodup.of_map Package.fingerprint hnodup
    · apply Finset.ext
      intro a
      simp only [List.mem_toFinset]
      constructor
      · intro ha
        exact hinvT.qsub a ha
      · intro ha
        have hfp := hall a ha
        rcases List.mem_map.mp hfp with ⟨b, hb, hbfp⟩
        have hba : b = a :=
          List.inj_on_of_nodup_map hnodup (hinvT.qsub b hb) ha hbfp
        rw [← hba]
        exact hb
  · rw [hQ]
    unfold topoOrderedExceptRuby
    apply topoAuxNR_rubies _ _ [] _ hinvT.rub
    rw [List.nil_append]
    exact hinvT.topo

/-- C5 witness: the amended theorem applied to scenario 1 of the spec,
with the rank function A ↦ 0, B ↦ 1, C ↦ 2, ruby ↦ 0. -/
theorem createDepBuckets_spec_witness :
    (([⟨"A", "fpA", []⟩, ⟨"B", "fpB", ["fpA"]⟩, ⟨"ruby-2.6", "fpR", []⟩,
        ⟨"C", "fpC", ["fpB"]⟩] : List Package).map
      Package.fingerprint).Nodup ∧
    createDepBuckets [⟨"A", "fpA", []⟩, ⟨"B", "fpB", ["fpA"]⟩,
        ⟨"ruby-2.6", "fpR", []⟩, ⟨"C", "fpC", ["fpB"]⟩] =
      [⟨"ruby-2.6", "fpR", []⟩, ⟨"A", "fpA", []⟩, ⟨"B", "fpB", ["fpA"]⟩,
        ⟨"C", "fpC", ["fpB"]⟩] := by
  refine ⟨by decide, ?_⟩
  have h := createDepBuckets_spec
    [⟨"A", "fpA", []⟩, ⟨"B", "fpB", ["fpA"]⟩, ⟨"ruby-2.6", "fpR", []⟩,
      ⟨"C", "fpC", ["fpB"]⟩]
    (fun st => if st = "fpB" then 1 else if st = "fpC" then 2 else 0)
    (by decide) (by decide)
  exact h.2.2.2

end Fissile
